import Mathlib

/-!
# detect: a verification development

A shallow embedding of `detect.go` (package `main`) and the properties of its
per-URL capture pipeline.

Modelling conventions.

* A Go `string` is a sequence of bytes.  Bytes are natural numbers (the values
  `0 .. 255`); every function below is total on lists of naturals, so a
  statement proved for all lists holds for all byte strings.
* `len(s)` is `List.length`, the slice `s[:n]` is `List.take n`, `s[n:]` is
  `List.drop n`.
* The standard library functions the program calls (`net/url.Parse`,
  `strings.HasPrefix`, `bufio.Scanner` with `ScanLines`,
  `regexp.ReplaceAllString` for the one pattern the program compiles) are
  transcribed from the Go standard library.
* The browser (chromedp), the clock and the file system are the environment:
  what they answer is a parameter of the functions that call them.
-/

namespace Detect

/-- A Go string: its bytes in order, each byte a natural number. -/
abbrev GoString := List Nat

/-- UTF-8 encoding of one Unicode scalar value (what a Go string literal or a
rendered document stores for this character). -/
def utf8EncodeChar (c : Char) : GoString :=
  let n := c.toNat
  if n < 0x80 then [n]
  else if n < 0x800 then [0xC0 + n / 64, 0x80 + n % 64]
  else if n < 0x10000 then [0xE0 + n / 4096, 0x80 + n / 64 % 64, 0x80 + n % 64]
  else [0xF0 + n / 262144, 0x80 + n / 4096 % 64, 0x80 + n / 64 % 64, 0x80 + n % 64]

/-- UTF-8 encoding of a sequence of characters. -/
def utf8Chars : List Char → GoString
  | [] => []
  | c :: cs => utf8EncodeChar c ++ utf8Chars cs

/-- The Go string written as the literal `s`. -/
def str (s : String) : GoString := utf8Chars s.toList

/-! ## package strings -/

/-- Go `strings.HasPrefix(s, p)`. -/
def HasPrefix : GoString → GoString → Bool
  | _, [] => true
  | [], _ :: _ => false
  | c :: cs, p :: ps => c == p && HasPrefix cs ps

/-- Go `strings.Cut(s, sep)` for a one-byte separator: the text before the
first `sep`, the text after it, and whether `sep` occurs. -/
def cutByte (sep : Nat) : GoString → GoString × GoString × Bool
  | [] => ([], [], false)
  | c :: cs =>
    if c = sep then ([], cs, true)
    else
      let r := cutByte sep cs
      (c :: r.1, r.2.1, r.2.2)

/-- Go `strings.Index(s, sep)`: `none` stands for `-1`. -/
def Index (sep : GoString) : GoString → Option Nat
  | [] => if sep = [] then some 0 else none
  | c :: cs =>
    if HasPrefix (c :: cs) sep then some 0
    else (Index sep cs).map (· + 1)

/-- Go `strings.LastIndex(s, sep)` for a one-byte separator: `none` stands
for `-1`. -/
def lastIndexByte (sep : Nat) : GoString → Option Nat
  | [] => none
  | c :: cs =>
    match lastIndexByte sep cs with
    | some i => some (i + 1)
    | none => if c = sep then some 0 else none

/-- Go `strings.Count(s, sep)` for a one-byte separator. -/
def countByte (sep : Nat) (s : GoString) : Nat := s.count sep

/-- Go `strings.HasSuffix(s, suffix)` for a one-byte suffix. -/
def hasSuffixByte (sep : Nat) (s : GoString) : Bool := s.getLast? == some sep

/-- Go `strings.ToLower` on one byte of an ASCII string. -/
def toLowerByte (c : Nat) : Nat := if 65 ≤ c ∧ c ≤ 90 then c + 32 else c

/-! ## package net/url

`url.Parse` as in the Go standard library (`net/url/url.go`, Go 1.21): every
error condition and the fields of the result other than the encoding hints.
`isValidURL` reads the error and the field `Scheme` only. -/

/-- The errors `url.Parse` can return. -/
inductive UrlError where
  | invalidControlCharacter
  | missingProtocolScheme
  | firstPathSegmentColon
  | missingBracket
  | invalidPort (port : GoString)
  | invalidUserinfo
  | escapeError (s : GoString)
  | invalidHostError (s : GoString)
  deriving DecidableEq, Repr

/-- Go `url.Userinfo`. -/
structure Userinfo where
  username : GoString
  password : GoString
  passwordSet : Bool
  deriving DecidableEq, Repr

/-- Go `url.URL`, without the two encoding hints `RawPath` and `RawFragment`
(they are computed after every error check and never read by this program). -/
structure URL where
  Scheme : GoString := []
  Opaque : GoString := []
  User : Option Userinfo := none
  Host : GoString := []
  Path : GoString := []
  OmitHost : Bool := false
  ForceQuery : Bool := false
  RawQuery : GoString := []
  Fragment : GoString := []
  deriving DecidableEq, Repr

/-- The escaping modes of net/url that `Parse` uses. -/
inductive Encoding where
  | encodePath
  | encodeHost
  | encodeZone
  | encodeUserPassword
  | encodeFragment
  deriving DecidableEq, Repr

/-- Go `stringContainsCTLByte`: a byte below space, or DEL. -/
def stringContainsCTLByte (s : GoString) : Bool :=
  s.any (fun b => decide (b < 32) || b == 127)

/-- ASCII letter test used by `getScheme`. -/
def isAlpha (c : Nat) : Bool :=
  (decide (97 ≤ c) && decide (c ≤ 122)) || (decide (65 ≤ c) && decide (c ≤ 90))

/-- ASCII digit test. -/
def isDigit (c : Nat) : Bool := decide (48 ≤ c) && decide (c ≤ 57)

/-- Go `ishex`. -/
def ishex (c : Nat) : Bool :=
  isDigit c || (decide (97 ≤ c) && decide (c ≤ 102)) || (decide (65 ≤ c) && decide (c ≤ 70))

/-- Go `unhex`. -/
def unhex (c : Nat) : Nat :=
  if isDigit c then c - 48
  else if 97 ≤ c ∧ c ≤ 102 then c - 97 + 10
  else if 65 ≤ c ∧ c ≤ 70 then c - 65 + 10
  else 0

/-- The loop of Go `getScheme`; `i` is the index of the head of the second
argument in `rawURL`. -/
def getSchemeLoop (rawURL : GoString) : Nat → GoString → Except UrlError (GoString × GoString)
  | _, [] => .ok ([], rawURL)
  | i, c :: cs =>
    if isAlpha c then getSchemeLoop rawURL (i + 1) cs
    else if isDigit c || c == 43 || c == 45 || c == 46 then
      if i = 0 then .ok ([], rawURL) else getSchemeLoop rawURL (i + 1) cs
    else if c = 58 then
      if i = 0 then .error .missingProtocolScheme
      else .ok (rawURL.take i, rawURL.drop (i + 1))
    else .ok ([], rawURL)

/-- Go `getScheme`: the scheme and the rest after the colon, or no scheme and
the whole input. -/
def getScheme (rawURL : GoString) : Except UrlError (GoString × GoString) :=
  getSchemeLoop rawURL 0 rawURL

/-- Go `shouldEscape(c, encodeHost)`, the only mode in which `unescape`
calls it. -/
def shouldEscapeHost (c : Nat) : Bool :=
  if isAlpha c || isDigit c then false
  -- '!' '$' '&' '\'' '(' ')' '*' '+' ',' ';' '=' ':' '[' ']' '<' '>' '"'
  else if c ∈ [33, 36, 38, 39, 40, 41, 42, 43, 44, 59, 61, 58, 91, 93, 60, 62, 34] then false
  -- '-' '_' '.' '~'
  else if c ∈ [45, 95, 46, 126] then false
  else true

/-- Go `unescape(s, mode)` for the modes `Parse` uses: the first malformed or
forbidden escape is an error, otherwise every `%XX` is decoded. -/
def unescape (mode : Encoding) : GoString → Except UrlError GoString
  | [] => .ok []
  | c :: cs =>
    if c = 37 then
      match cs with
      | h1 :: h2 :: rest =>
        if !ishex h1 || !ishex h2 then .error (.escapeError ((c :: cs).take 3))
        else if mode = .encodeHost ∧ unhex h1 < 8 ∧ [c, h1, h2] ≠ [37, 50, 53] then
          .error (.escapeError [c, h1, h2])
        else if mode = .encodeZone ∧ [c, h1, h2] ≠ [37, 50, 53] ∧
            (unhex h1 * 16 + unhex h2) ≠ 32 ∧ shouldEscapeHost (unhex h1 * 16 + unhex h2) then
          .error (.escapeError [c, h1, h2])
        else
          match unescape mode rest with
          | .ok t => .ok ((unhex h1 * 16 + unhex h2) :: t)
          | .error e => .error e
      | _ => .error (.escapeError ((c :: cs).take 3))
    else if (mode = .encodeHost ∨ mode = .encodeZone) ∧ c < 128 ∧ shouldEscapeHost c then
      .error (.invalidHostError [c])
    else
      match unescape mode cs with
      | .ok t => .ok (c :: t)
      | .error e => .error e

/-- Go `validOptionalPort`: empty, or a colon followed by digits only. -/
def validOptionalPort : GoString → Bool
  | [] => true
  | c :: cs => c == 58 && cs.all isDigit

/-- Go `validUserinfo`. -/
def validUserinfo (s : GoString) : Bool :=
  s.all (fun r => isAlpha r || isDigit r ||
    -- '-' '.' '_' ':' '~' '!' '$' '&' '\'' '(' ')' '*' '+' ',' ';' '=' '%' '@'
    decide (r ∈ [45, 46, 95, 58, 126, 33, 36, 38, 39, 40, 41, 42, 43, 44, 59, 61, 37, 64]))

/-- Go `parseHost`. -/
def parseHost (host : GoString) : Except UrlError GoString :=
  if HasPrefix host [91] then
    match lastIndexByte 93 host with
    | none => .error .missingBracket
    | some i =>
      let colonPort := host.drop (i + 1)
      if !validOptionalPort colonPort then .error (.invalidPort colonPort)
      else
        match Index [37, 50, 53] (host.take i) with
        | some zone =>
          match unescape .encodeHost (host.take zone) with
          | .error e => .error e
          | .ok host1 =>
            match unescape .encodeZone ((host.take i).drop zone) with
            | .error e => .error e
            | .ok host2 =>
              match unescape .encodeHost (host.drop i) with
              | .error e => .error e
              | .ok host3 => .ok (host1 ++ host2 ++ host3)
        | none => unescape .encodeHost host
  else
    match lastIndexByte 58 host with
    | some i =>
      let colonPort := host.drop i
      if !validOptionalPort colonPort then .error (.invalidPort colonPort)
      else unescape .encodeHost host
    | none => unescape .encodeHost host

/-- Go `parseAuthority`. -/
def parseAuthority (authority : GoString) : Except UrlError (Option Userinfo × GoString) :=
  let i := lastIndexByte 64 authority
  let hostPart := match i with
    | none => authority
    | some i => authority.drop (i + 1)
  match parseHost hostPart with
  | .error e => .error e
  | .ok host =>
    match i with
    | none => .ok (none, host)
    | some i =>
      let userinfo := authority.take i
      if !validUserinfo userinfo then .error .invalidUserinfo
      else if !userinfo.contains 58 then
        match unescape .encodeUserPassword userinfo with
        | .error e => .error e
        | .ok u => .ok (some ⟨u, [], false⟩, host)
      else
        let c := cutByte 58 userinfo
        match unescape .encodeUserPassword c.1 with
        | .error e => .error e
        | .ok username =>
          match unescape .encodeUserPassword c.2.1 with
          | .error e => .error e
          | .ok password => .ok (some ⟨username, password, true⟩, host)

/-- Go `parse(rawURL, viaRequest)` with `viaRequest = false`, as `url.Parse`
calls it. -/
def parse (rawURL : GoString) : Except UrlError URL :=
  if stringContainsCTLByte rawURL then .error .invalidControlCharacter
  else if rawURL = [42] then .ok { Path := [42] }
  else
    match getScheme rawURL with
    | .error e => .error e
    | .ok (scheme0, rest0) =>
      let scheme := scheme0.map toLowerByte
      let forceQuery := hasSuffixByte 63 rest0 && countByte 63 rest0 == 1
      let rest := if forceQuery then rest0.take (rest0.length - 1) else (cutByte 63 rest0).1
      let rawQuery := if forceQuery then [] else (cutByte 63 rest0).2.1
      if !HasPrefix rest [47] ∧ scheme ≠ [] then
        .ok { Scheme := scheme, ForceQuery := forceQuery, RawQuery := rawQuery, Opaque := rest }
      else if !HasPrefix rest [47] ∧ (cutByte 47 rest).1.contains 58 then
        .error .firstPathSegmentColon
      else if (scheme ≠ [] ∨ !HasPrefix rest [47, 47, 47]) ∧ HasPrefix rest [47, 47] then
        let authority0 := rest.drop 2
        let authority := match Index [47] authority0 with
          | some i => authority0.take i
          | none => authority0
        let rest1 := match Index [47] authority0 with
          | some i => authority0.drop i
          | none => []
        match parseAuthority authority with
        | .error e => .error e
        | .ok (user, host) =>
          match unescape .encodePath rest1 with
          | .error e => .error e
          | .ok path =>
            .ok { Scheme := scheme, ForceQuery := forceQuery, RawQuery := rawQuery,
                  User := user, Host := host, Path := path }
      else
        match unescape .encodePath rest with
        | .error e => .error e
        | .ok path =>
          .ok { Scheme := scheme, ForceQuery := forceQuery, RawQuery := rawQuery,
                OmitHost := decide (scheme ≠ []) && HasPrefix rest [47], Path := path }

/-- Go `url.Parse`: cut off the fragment, parse the rest, then decode the
fragment. -/
def Parse (rawURL : GoString) : Except UrlError URL :=
  let c := cutByte 35 rawURL
  match parse c.1 with
  | .error e => .error e
  | .ok url =>
    if c.2.1 = [] then .ok url
    else
      match unescape .encodeFragment c.2.1 with
      | .error e => .error e
      | .ok frag => .ok { url with Fragment := frag }

/-! ## detect.go -/

/-- The function `isValidURL` of detect.go: the URL parses and its scheme is
`http` or `https`. -/
def isValidURL (urll : GoString) : Bool :=
  match Parse urll with
  | .error _ => false
  | .ok u =>
    if u.Scheme ≠ str "http" ∧ u.Scheme ≠ str "https" then false
    else true

/-- The type `ResponseData` of detect.go. -/
structure ResponseData where
  URL : GoString := []
  ResponseBody : GoString := []
  Network : List GoString := []
  Timestamp : GoString := []
  deriving DecidableEq, Repr

/-- The function `contains` of detect.go: linear search for `url`. -/
def contains : List GoString → GoString → Bool
  | [], _ => false
  | s :: slice, url => if s = url then true else contains slice url

/-! ### The pattern of `RemoveDataURIs`

`regexp.MustCompile("data:[^;]+;[^,]+,")`.  The two classes exclude one ASCII
byte each and the literals are ASCII, so matching runes (as Go does) and
matching bytes select the same substrings: a UTF-8 sequence of several bytes
never contains an ASCII byte. -/

/-- The regular expressions needed for the pattern. -/
inductive Regex where
  | lit (b : Nat)
  | notByte (b : Nat)
  | plus (r : Regex)
  | cat (r s : Regex)
  deriving DecidableEq, Repr

/-- The strings a regular expression matches. -/
inductive Matches : Regex → GoString → Prop where
  | lit (b : Nat) : Matches (.lit b) [b]
  | notByte (b c : Nat) : c ≠ b → Matches (.notByte b) [c]
  | plusOne {r : Regex} {x : GoString} : Matches r x → Matches (.plus r) x
  | plusMore {r : Regex} {x y : GoString} :
      Matches r x → Matches (.plus r) y → Matches (.plus r) (x ++ y)
  | cat {r s : Regex} {x y : GoString} : Matches r x → Matches s y → Matches (.cat r s) (x ++ y)

/-- The pattern `data:[^;]+;[^,]+,` as a syntax tree. -/
def dataURIPattern : Regex :=
  .cat (.lit 100) (.cat (.lit 97) (.cat (.lit 116) (.cat (.lit 97) (.cat (.lit 58)
    (.cat (.plus (.notByte 59)) (.cat (.lit 59) (.cat (.plus (.notByte 44)) (.lit 44))))))))

/-- Some substring of `s` matches the pattern. -/
def HasMatch (s : GoString) : Prop :=
  ∃ pre m post, s = pre ++ m ++ post ∧ Matches dataURIPattern m

/-- The rest of the input after `[^x]*x`: everything behind the first `x`. -/
def afterFirst (x : Nat) : GoString → Option GoString
  | [] => none
  | c :: cs => if c = x then some cs else afterFirst x cs

/-- The rest of the input after `[^x]+x`: the greedy run of bytes other than
`x` must be non-empty and end at an `x`. -/
def classPlusThen (x : Nat) : GoString → Option GoString
  | [] => none
  | c :: cs => if c = x then none else afterFirst x cs

/-- A match of the pattern at the start of `s`: the rest of `s` behind the
match, if there is one. -/
def matchAt (s : GoString) : Option GoString :=
  if HasPrefix s (str "data:") then
    (classPlusThen 59 (s.drop 5)).bind (classPlusThen 44)
  else none

/-- Go `ReplaceAllString(s, "")` for the pattern: scan from the left, drop
each match found and go on behind it.  A match is never empty, so `fuel`
at least `len(s)` is never used up. -/
def replaceAll : Nat → GoString → GoString
  | 0, s => s
  | _ + 1, [] => []
  | fuel + 1, c :: cs =>
    match matchAt (c :: cs) with
    | some rest => replaceAll fuel rest
    | none => c :: replaceAll fuel cs

/-- The function `RemoveDataURIs` of detect.go. -/
def RemoveDataURIs (htmlBody : GoString) : GoString :=
  replaceAll htmlBody.length htmlBody

/-! ### The browser session -/

/-- An event delivered to the listener of `chromedp.ListenTarget`: a
`*network.EventRequestWillBeSent` with its `Request.URL`, or any other
event. -/
inductive Event where
  | requestWillBeSent (url : GoString)
  | other (kind : Nat)
  deriving DecidableEq, Repr

/-- An error returned by `chromedp.Run`. -/
inductive BrowserError where
  | navigationFailed
  | deadlineExceeded
  | evaluationFailed
  deriving DecidableEq, Repr

/-- What the browser does during one call of `captureWebData`: the events it
delivers to the listener before the result is assembled, in delivery order,
the outcome of `Navigate`, of `WaitVisible` and of `EvaluateAsDevTools` (an
expired 10 second deadline of `processURL` is the error `deadlineExceeded` of
the step it interrupts), and the clock reading formatted as
`2006-01-02 15:04:05`. -/
structure Session where
  events : List Event
  navigate : Option BrowserError
  waitVisible : Option BrowserError
  evaluate : Except BrowserError GoString
  now : GoString
  deriving Repr

/-- The listener registered by `captureWebData`, run on one event with the
current `requestURLs`. -/
def listener (requestURLs : List GoString) (ev : Event) : List GoString :=
  match ev with
  | .requestWillBeSent url =>
    if !HasPrefix url (str "data:") && !contains requestURLs url then requestURLs ++ [url]
    else requestURLs
  | .other _ => requestURLs

/-- The constant `maxBodyLength` of `captureWebData`. -/
def maxBodyLength : Nat := 50 * 1024

/-- The size bound of `captureWebData` applied to the sanitized body. -/
def truncateBody (responseBody : GoString) : GoString :=
  if responseBody.length > maxBodyLength then responseBody.take maxBodyLength
  else responseBody

/-- The function `captureWebData` of detect.go: the returned `ResponseData`
and the returned error (`none` for `nil`). -/
def captureWebData (b : Session) (url : GoString) : ResponseData × Option BrowserError :=
  let requestURLs := b.events.foldl listener []
  match b.navigate with
  | some err => ({}, some err)
  | none =>
    match b.waitVisible with
    | some err => ({}, some err)
    | none =>
      match b.evaluate with
      | .error err => ({}, some err)
      | .ok responseBody =>
        ({ URL := url,
           ResponseBody := truncateBody (RemoveDataURIs responseBody),
           Network := requestURLs,
           Timestamp := b.now }, none)

/-! ### The result sink and the driver -/

/-- What the file system answers to one call of `outputJSON`. -/
inductive SinkOutcome where
  | written
  | openFailed
  | encodeFailed
  deriving DecidableEq, Repr

/-- A line written by `log.Printf`. -/
inductive LogEntry where
  | captureFailed (url : GoString) (err : BrowserError)
  | openFailed
  | writeFailed
  deriving DecidableEq, Repr

/-- The observable state of a run: the lines printed on standard output, the
log, and for every path the records appended to that file so far (a record
stands for the line `json.Encoder` writes for it). -/
structure World where
  stdout : List GoString
  log : List LogEntry
  files : GoString → List ResponseData

/-- The environment of one call of `processURL`. -/
structure Attempt where
  session : Session
  sink : SinkOutcome

/-- The function `outputJSON` of detect.go. -/
def outputJSON (sink : SinkOutcome) (data : ResponseData) (filePath : GoString) (w : World) :
    World :=
  match sink with
  | .openFailed => { w with log := w.log ++ [.openFailed] }
  | .encodeFailed => { w with log := w.log ++ [.writeFailed] }
  | .written =>
    { w with files := fun p => if p = filePath then w.files p ++ [data] else w.files p }

/-- The function `processURL` of detect.go. -/
def processURL (a : Attempt) (url : GoString) (outputFilePath : GoString) (w : World) : World :=
  let w1 := { w with stdout := w.stdout ++ [str "Get: " ++ url] }
  match captureWebData a.session url with
  | (_, some err) => { w1 with log := w1.log ++ [.captureFailed url err] }
  | (responseData, none) => outputJSON a.sink responseData outputFilePath w1

/-! ### Standard input and `bufio.Scanner`

`bufio.NewScanner(os.Stdin)` with its defaults: the split function
`ScanLines` and a buffer that grows up to `MaxScanTokenSize` bytes.  The
program never calls `scanner.Buffer` and never reads `scanner.Err()`. -/

/-- Standard input: whether it is a character device, the bytes its `Read`
delivers before it first returns an error (`io.EOF` or any other: the scanner
treats them alike and the program never reads the error), and how many bytes
the next `Read` delivers when `n` bytes are still unread. -/
structure Stdin where
  isCharDevice : Bool
  data : GoString
  chunk : Nat → Nat

/-- Go `bufio.MaxScanTokenSize`. -/
def MaxScanTokenSize : Nat := 64 * 1024

/-- Go `bytes.IndexByte(b, c)`: `none` stands for `-1`. -/
def IndexByte (c : Nat) : GoString → Option Nat
  | [] => none
  | b :: bs => if b = c then some 0 else (IndexByte c bs).map (· + 1)

/-- Go `dropCR` of package bufio: drop one trailing carriage return. -/
def dropCR (data : GoString) : GoString :=
  if data.getLast? = some 13 then data.dropLast else data

/-- Go `bufio.ScanLines`: how far to advance, and the token (`none` for a
`nil` token, a request for more data). -/
def ScanLines (data : GoString) (atEOF : Bool) : Nat × Option GoString :=
  if atEOF = true ∧ data = [] then (0, none)
  else
    match IndexByte 10 data with
    | some i => (i + 1, some (dropCR (data.take i)))
    | none => if atEOF then (data.length, some (dropCR data)) else (0, none)

/-- The loop `for scanner.Scan() { ... }` of `readAndFilterURLs`, one step for
each round of the loop inside `Scanner.Scan`.  The scanner's state is `buf`
(the bytes `s.buf[s.start:s.end]`, read and not yet consumed), `unread` (the
rest of the stream) and `err` (`s.err != nil`).  A round first asks the split
function for a token; a token ends `Scan` with `true` and the loop body runs on
it.  Without a token `Scan` ends with `false` when an error was seen or when
the buffer is full at its greatest size (`ErrTooLong`: `MaxScanTokenSize`
bytes without a newline), and reads on otherwise: a `Read` at the end of the
stream returns the error, any other `Read` delivers `chunk` bytes, at least
one and at most as many as a buffer of the greatest size has room for.  The
real buffer is never larger than that, so every way the real `Read` can chunk
the stream is one of the `chunk` functions. -/
def scanLoop (chunk : Nat → Nat) :
    Nat → GoString → GoString → Bool → List GoString → List GoString
  | 0, _, _, _, validURLs => validURLs
  | fuel + 1, buf, unread, err, validURLs =>
    match (if buf ≠ [] ∨ err = true then ScanLines buf err else (0, none)) with
    | (advance, some url) =>
      scanLoop chunk fuel (buf.drop advance) unread err
        (if isValidURL url then validURLs ++ [url] else validURLs)
    | (_, none) =>
      if err then validURLs
      else if buf.length ≥ MaxScanTokenSize then validURLs
      else if unread = [] then scanLoop chunk fuel buf [] true validURLs
      else
        let n := min (max (chunk unread.length) 1) (MaxScanTokenSize - buf.length)
        scanLoop chunk fuel (buf ++ unread.take n) (unread.drop n) false validURLs

/-- The function `readAndFilterURLs` of detect.go.  Every round of `scanLoop`
consumes a byte of the buffer, reads a byte or meets the end of the stream, so
the fuel `2 * len(data) + 2` is never used up. -/
def readAndFilterURLs (stdin : Stdin) : List GoString :=
  if !stdin.isCharDevice then
    scanLoop stdin.chunk (2 * stdin.data.length + 2) [] stdin.data false []
  else []

/-- The command line after `flag.Parse`. -/
structure Flags where
  url : GoString := []
  outputFilePath : GoString := str "./detect_result.json"

/-- The loop of `main` over the filtered URLs; `env k` is the environment of
the `k`-th call of `processURL`. -/
def processAll (env : Nat → Attempt) (outputFilePath : GoString) :
    Nat → List GoString → World → World
  | _, [], w => w
  | k, u :: urls, w => processAll env outputFilePath (k + 1) urls (processURL (env k) u outputFilePath w)

/-- The function `main` of detect.go. -/
def main (flags : Flags) (stdin : Stdin) (env : Nat → Attempt) (w : World) : World :=
  if flags.url ≠ [] then processURL (env 0) flags.url flags.outputFilePath w
  else processAll env flags.outputFilePath 0 (readAndFilterURLs stdin) w

/-! ### Specification-side notions -/

/-- The target URL of a "request will be sent" event. -/
def Event.requestURL : Event → Option GoString
  | .requestWillBeSent url => some url
  | .other _ => none

/-- The URLs of the "request will be sent" events that do not start with
`data:`, in arrival order. -/
def qualifying (events : List Event) : List GoString :=
  (events.filterMap Event.requestURL).filter (fun u => !HasPrefix u (str "data:"))

/-- Each element of `l` kept once, at the position of its first occurrence:
the element at index `i` stays iff it does not occur before index `i`. -/
def firstOccurrences (l : List GoString) : List GoString :=
  (l.enum.filter (fun p => decide (p.2 ∉ l.take p.1))).map Prod.snd

/-- The lines `ls`, each followed by a newline, as one byte stream. -/
def unlines : List GoString → GoString
  | [] => []
  | l :: ls => l ++ 10 :: unlines ls

/-- The tokens a line scanner without chunking delivers for the stream
`data` when `cur` is the part of the current line already seen: every line
shorter than `MaxScanTokenSize` without its end-of-line marker, up to the
first line that is not shorter. -/
def lineTokens : GoString → GoString → List GoString
  | cur, [] =>
    if cur = [] then [] else if cur.length ≥ MaxScanTokenSize then [] else [dropCR cur]
  | cur, c :: cs =>
    if c = 10 then
      if cur.length ≥ MaxScanTokenSize then [] else dropCR cur :: lineTokens [] cs
    else lineTokens (cur ++ [c]) cs

/-- A byte string is valid UTF-8 when it is the encoding of a sequence of
Unicode scalar values. -/
def ValidUTF8 (s : GoString) : Prop := ∃ cs : List Char, utf8Chars cs = s

/-! ### Concrete environments used in the examples -/

/-- A world in which nothing has been printed, logged or written. -/
def emptyWorld : World := ⟨[], [], fun _ => []⟩

/-- A session in which every step succeeds: the page delivers `events` and
renders as `html`. -/
def pageSession (events : List Event) (html : GoString) : Session :=
  ⟨events, none, none, .ok html, str "2006-01-02 15:04:05"⟩

/-- A session whose root element never becomes visible within the deadline. -/
def timeoutSession : Session :=
  ⟨[], none, some .deadlineExceeded, .error .deadlineExceeded, str "2006-01-02 15:04:05"⟩

/-- A batch environment: every page loads, except that the second attempt
(index 1) times out; every write succeeds. -/
def secondTimesOut : Nat → Attempt :=
  fun k => if k = 1 then ⟨timeoutSession, .written⟩ else ⟨pageSession [] (str "<p>x</p>"), .written⟩

/-- A batch environment in which every page loads and the output file cannot
be opened. -/
def unwritable : Nat → Attempt :=
  fun _ => ⟨pageSession [] (str "<p>x</p>"), .openFailed⟩

/-- Events of one page load: a script, an event of another kind, an inline
image, a style sheet, and the script again. -/
def sampleEvents : List Event :=
  [.requestWillBeSent (str "http://a/x.js"), .other 7,
   .requestWillBeSent (str "data:image/png;base64,AAAA"),
   .requestWillBeSent (str "http://a/y.css"), .requestWillBeSent (str "http://a/x.js")]

/-- Events of a page load with three distinct requests, none for a `data:`
URL. -/
def threeRequests : List Event :=
  [.requestWillBeSent (str "http://a/1.js"), .requestWillBeSent (str "http://a/2.css"),
   .other 3, .requestWillBeSent (str "http://a/3.png")]

/-- A line of 70004 bytes `x`. -/
def longLine : GoString := List.replicate 70004 120

/-- A body of 25601 characters: `a` followed by 25600 times `é` (U+00E9, two
bytes in UTF-8). -/
def wideBody : List Char := 'a' :: List.replicate 25600 (Char.ofNat 233)

/-! ## Lemmas on the pattern matcher -/

theorem str_data : str "data:" = [100, 97, 116, 97, 58] := by decide

theorem hasPrefix_iff (s p : GoString) : HasPrefix s p = true ↔ ∃ t, s = p ++ t := by
  induction p generalizing s with
  | nil => simp [HasPrefix]
  | cons a p ih =>
    cases s with
    | nil => simp [HasPrefix]
    | cons c cs =>
      simp only [HasPrefix, Bool.and_eq_true, beq_iff_eq, ih, List.cons_append, List.cons.injEq]
      constructor
      · rintro ⟨rfl, t, rfl⟩
        exact ⟨t, rfl, rfl⟩
      · rintro ⟨t, rfl, rfl⟩
        exact ⟨rfl, t, rfl⟩

theorem afterFirst_eq_some (x : Nat) (s r : GoString) :
    afterFirst x s = some r ↔ ∃ p, x ∉ p ∧ s = p ++ x :: r := by
  induction s with
  | nil => simp [afterFirst]
  | cons c cs ih =>
    simp only [afterFirst]
    split
    · rename_i h
      subst h
      constructor
      · intro h
        injection h with h
        exact ⟨[], by simp, by simp [h]⟩
      · rintro ⟨p, hp, hs⟩
        cases p with
        | nil =>
          simp only [List.nil_append, List.cons.injEq, true_and] at hs
          rw [hs]
        | cons a p =>
          simp only [List.cons_append, List.cons.injEq] at hs
          simp only [List.mem_cons, not_or] at hp
          exact absurd hs.1 hp.1
    · rename_i h
      rw [ih]
      constructor
      · rintro ⟨p, hp, hs⟩
        refine ⟨c :: p, ?_, by simp [hs]⟩
        simp only [List.mem_cons, not_or]
        exact ⟨fun e => h e.symm, hp⟩
      · rintro ⟨p, hp, hs⟩
        cases p with
        | nil =>
          simp only [List.nil_append, List.cons.injEq] at hs
          exact absurd hs.1 h
        | cons a p =>
          simp only [List.cons_append, List.cons.injEq] at hs
          simp only [List.mem_cons, not_or] at hp
          exact ⟨p, hp.2, hs.2⟩

theorem classPlusThen_eq_some (x : Nat) (s r : GoString) :
    classPlusThen x s = some r ↔ ∃ p, p ≠ [] ∧ x ∉ p ∧ s = p ++ x :: r := by
  cases s with
  | nil => simp [classPlusThen]
  | cons c cs =>
    simp only [classPlusThen]
    split
    · rename_i h
      subst h
      constructor
      · intro h
        cases h
      · rintro ⟨p, hne, hp, hs⟩
        cases p with
        | nil => exact absurd rfl hne
        | cons a p =>
          simp only [List.cons_append, List.cons.injEq] at hs
          simp only [List.mem_cons, not_or] at hp
          exact absurd hs.1 hp.1
    · rename_i h
      rw [afterFirst_eq_some]
      constructor
      · rintro ⟨p, hp, hs⟩
        refine ⟨c :: p, by simp, ?_, by simp [hs]⟩
        simp only [List.mem_cons, not_or]
        exact ⟨fun e => h e.symm, hp⟩
      · rintro ⟨p, hne, hp, hs⟩
        cases p with
        | nil => exact absurd rfl hne
        | cons a p =>
          simp only [List.cons_append, List.cons.injEq] at hs
          simp only [List.mem_cons, not_or] at hp
          exact ⟨p, hp.2, hs.2⟩

theorem matches_lit_iff (b : Nat) (m : GoString) : Matches (.lit b) m ↔ m = [b] := by
  constructor
  · intro h
    cases h
    rfl
  · rintro rfl
    exact Matches.lit b

theorem matches_cat_iff (r s : Regex) (m : GoString) :
    Matches (.cat r s) m ↔ ∃ x y, m = x ++ y ∧ Matches r x ∧ Matches s y := by
  constructor
  · intro h
    cases h with
    | cat h1 h2 => exact ⟨_, _, rfl, h1, h2⟩
  · rintro ⟨x, y, rfl, h1, h2⟩
    exact Matches.cat h1 h2

theorem matches_plus_notByte_aux (b : Nat) (r : Regex) (m : GoString) (h : Matches r m) :
    r = .plus (.notByte b) → m ≠ [] ∧ b ∉ m := by
  induction h with
  | lit c => intro e; cases e
  | notByte c d hd => intro e; cases e
  | cat _ _ _ _ => intro e; cases e
  | plusOne h1 _ =>
    intro e
    cases e
    cases h1 with
    | notByte _ c hc =>
      refine ⟨by simp, ?_⟩
      simp only [List.mem_singleton]
      exact fun e => hc e.symm
  | plusMore h1 _ _ ih2 =>
    intro e
    cases e
    cases h1 with
    | notByte _ c hc =>
      have := ih2 rfl
      refine ⟨by simp, ?_⟩
      simp only [List.singleton_append, List.mem_cons, not_or]
      exact ⟨fun e => hc e.symm, this.2⟩

theorem matches_plus_notByte (b : Nat) (m : GoString) :
    Matches (.plus (.notByte b)) m ↔ m ≠ [] ∧ b ∉ m := by
  constructor
  · intro h
    exact matches_plus_notByte_aux b _ m h rfl
  · rintro ⟨hne, hb⟩
    induction m with
    | nil => exact absurd rfl hne
    | cons c cs ih =>
      simp only [List.mem_cons, not_or] at hb
      have hc : Matches (.notByte b) [c] := Matches.notByte b c (fun e => hb.1 e.symm)
      cases cs with
      | nil => exact Matches.plusOne hc
      | cons d ds =>
        have := ih (by simp) hb.2
        exact Matches.plusMore hc this

/-- The matches of the pattern, spelled out: `data:`, a non-empty run without
`;`, a `;`, a non-empty run without `,`, a `,`. -/
theorem matches_dataURIPattern (m : GoString) :
    Matches dataURIPattern m ↔
      ∃ x y, x ≠ [] ∧ 59 ∉ x ∧ y ≠ [] ∧ 44 ∉ y ∧
        m = [100, 97, 116, 97, 58] ++ (x ++ 59 :: (y ++ [44])) := by
  constructor
  · intro h
    simp only [dataURIPattern, matches_cat_iff, matches_lit_iff, matches_plus_notByte] at h
    obtain ⟨_, _, rfl, rfl, _, _, rfl, rfl, _, _, rfl, rfl, _, _, rfl, rfl, _, _, rfl, rfl,
      x, _, rfl, ⟨hx1, hx2⟩, _, _, rfl, rfl, y, _, rfl, ⟨hy1, hy2⟩, rfl⟩ := h
    exact ⟨x, y, hx1, hx2, hy1, hy2, by simp⟩
  · rintro ⟨x, y, hx1, hx2, hy1, hy2, rfl⟩
    have hx : Matches (.plus (.notByte 59)) x := (matches_plus_notByte 59 x).2 ⟨hx1, hx2⟩
    have hy : Matches (.plus (.notByte 44)) y := (matches_plus_notByte 44 y).2 ⟨hy1, hy2⟩
    have h := Matches.cat (Matches.lit 100) (Matches.cat (Matches.lit 97)
      (Matches.cat (Matches.lit 116) (Matches.cat (Matches.lit 97) (Matches.cat (Matches.lit 58)
        (Matches.cat hx (Matches.cat (Matches.lit 59) (Matches.cat hy (Matches.lit 44))))))))
    exact h

/-- The matcher finds exactly the matches of the pattern that start the
input. -/
theorem matchAt_eq_some (s r : GoString) :
    matchAt s = some r ↔ ∃ m, Matches dataURIPattern m ∧ s = m ++ r := by
  simp only [matchAt, str_data]
  constructor
  · intro h
    split at h
    · rename_i hp
      obtain ⟨t, rfl⟩ := (hasPrefix_iff _ _).1 hp
      simp only [List.cons_append, List.nil_append, List.drop_succ_cons, List.drop_zero,
        Option.bind_eq_some] at h
      obtain ⟨u, hu, hr⟩ := h
      obtain ⟨x, hx1, hx2, rfl⟩ := (classPlusThen_eq_some _ _ _).1 hu
      obtain ⟨y, hy1, hy2, rfl⟩ := (classPlusThen_eq_some _ _ _).1 hr
      exact ⟨_, (matches_dataURIPattern _).2 ⟨x, y, hx1, hx2, hy1, hy2, rfl⟩, by simp⟩
    · cases h
  · rintro ⟨m, hm, rfl⟩
    obtain ⟨x, y, hx1, hx2, hy1, hy2, rfl⟩ := (matches_dataURIPattern _).1 hm
    have hp : HasPrefix ([100, 97, 116, 97, 58] ++ (x ++ 59 :: (y ++ [44])) ++ r)
        [100, 97, 116, 97, 58] = true :=
      (hasPrefix_iff _ _).2 ⟨x ++ 59 :: (y ++ [44]) ++ r, by simp⟩
    rw [if_pos hp]
    simp only [List.cons_append, List.nil_append, List.drop_succ_cons, List.drop_zero,
      Option.bind_eq_some]
    refine ⟨y ++ 44 :: r, ?_, ?_⟩
    · exact (classPlusThen_eq_some _ _ _).2 ⟨x, hx1, hx2, by simp⟩
    · exact (classPlusThen_eq_some _ _ _).2 ⟨y, hy1, hy2, rfl⟩

theorem matches_dataURIPattern_ne_nil (m : GoString) (h : Matches dataURIPattern m) : m ≠ [] := by
  obtain ⟨x, y, _, _, _, _, rfl⟩ := (matches_dataURIPattern m).1 h
  simp

theorem matchAt_length (s r : GoString) (h : matchAt s = some r) : r.length < s.length := by
  obtain ⟨m, hm, rfl⟩ := (matchAt_eq_some s r).1 h
  have := List.length_pos.2 (matches_dataURIPattern_ne_nil m hm)
  simp only [List.length_append]
  omega

theorem matchAt_eq_none (s : GoString) :
    matchAt s = none ↔ ∀ m r, Matches dataURIPattern m → s ≠ m ++ r := by
  constructor
  · intro h m r hm hs
    have := (matchAt_eq_some s r).2 ⟨m, hm, hs⟩
    rw [h] at this
    cases this
  · intro h
    cases hs : matchAt s with
    | none => rfl
    | some r =>
      obtain ⟨m, hm, e⟩ := (matchAt_eq_some s r).1 hs
      exact absurd e (h m r hm)

/-! ## Lemmas on `RemoveDataURIs` -/

theorem replaceAll_fuel (n : Nat) : ∀ (m : Nat) (s : GoString), s.length ≤ n → s.length ≤ m →
    replaceAll n s = replaceAll m s := by
  induction n with
  | zero =>
    intro m s hn _
    have : s = [] := List.length_eq_zero.1 (Nat.le_zero.1 hn)
    subst this
    cases m <;> rfl
  | succ n ih =>
    intro m s hn hm
    cases s with
    | nil => cases m <;> rfl
    | cons c cs =>
      cases m with
      | zero => simp at hm
      | succ m =>
        simp only [replaceAll]
        cases hr : matchAt (c :: cs) with
        | none =>
          simp only [List.length_cons] at hn hm
          simp only
          rw [ih m cs (by omega) (by omega)]
        | some rest =>
          have := matchAt_length _ _ hr
          simp only [List.length_cons] at hn hm this
          simp only
          exact ih m rest (by omega) (by omega)

theorem removeDataURIs_nil : RemoveDataURIs [] = [] := rfl

theorem removeDataURIs_cons_none (c : Nat) (cs : GoString) (h : matchAt (c :: cs) = none) :
    RemoveDataURIs (c :: cs) = c :: RemoveDataURIs cs := by
  simp only [RemoveDataURIs, List.length_cons, replaceAll, h]

theorem removeDataURIs_cons_some (c : Nat) (cs rest : GoString)
    (h : matchAt (c :: cs) = some rest) :
    RemoveDataURIs (c :: cs) = RemoveDataURIs rest := by
  have hl := matchAt_length _ _ h
  simp only [List.length_cons] at hl
  simp only [RemoveDataURIs, List.length_cons, replaceAll, h]
  exact replaceAll_fuel _ _ _ (by omega) (Nat.le_refl _)

theorem length_removeDataURIs_le_aux (n : Nat) : ∀ s : GoString, s.length ≤ n →
    (RemoveDataURIs s).length ≤ s.length := by
  induction n with
  | zero =>
    intro s hs
    have : s = [] := List.length_eq_zero.1 (Nat.le_zero.1 hs)
    subst this
    simp [removeDataURIs_nil]
  | succ n ih =>
    intro s hs
    cases s with
    | nil => simp [removeDataURIs_nil]
    | cons c cs =>
      simp only [List.length_cons] at hs
      cases hr : matchAt (c :: cs) with
      | none =>
        rw [removeDataURIs_cons_none c cs hr]
        have := ih cs (by omega)
        simp only [List.length_cons]
        omega
      | some rest =>
        rw [removeDataURIs_cons_some c cs rest hr]
        have hl := matchAt_length _ _ hr
        simp only [List.length_cons] at hl
        have := ih rest (by omega)
        simp only [List.length_cons]
        omega

theorem length_removeDataURIs_le (s : GoString) : (RemoveDataURIs s).length ≤ s.length :=
  length_removeDataURIs_le_aux s.length s (Nat.le_refl _)

theorem hasMatch_cons (c : Nat) (cs : GoString) (h : HasMatch cs) : HasMatch (c :: cs) := by
  obtain ⟨pre, m, post, rfl, hm⟩ := h
  exact ⟨c :: pre, m, post, by simp, hm⟩

theorem hasMatch_of_matchAt (s r : GoString) (h : matchAt s = some r) : HasMatch s := by
  obtain ⟨m, hm, rfl⟩ := (matchAt_eq_some s r).1 h
  exact ⟨[], m, r, by simp, hm⟩

theorem hasMatch_cons_iff (c : Nat) (cs : GoString) :
    HasMatch (c :: cs) ↔ (matchAt (c :: cs)).isSome = true ∨ HasMatch cs := by
  constructor
  · rintro ⟨pre, m, post, hs, hm⟩
    cases pre with
    | nil =>
      left
      have := (matchAt_eq_some (c :: cs) post).2 ⟨m, hm, by simpa using hs⟩
      simp [this]
    | cons a pre =>
      right
      simp only [List.cons_append, List.cons.injEq] at hs
      exact ⟨pre, m, post, by simp [hs.2], hm⟩
  · rintro (h | h)
    · obtain ⟨r, hr⟩ := Option.isSome_iff_exists.1 h
      exact hasMatch_of_matchAt _ _ hr
    · exact hasMatch_cons c cs h

theorem not_hasMatch_nil : ¬ HasMatch [] := by
  rintro ⟨pre, m, post, hs, hm⟩
  have hne := matches_dataURIPattern_ne_nil m hm
  have := congrArg List.length hs
  have hl := List.length_pos.2 hne
  simp only [List.length_nil, List.length_append] at this
  omega

/-- A string without a match is left alone. -/
theorem removeDataURIs_of_not_hasMatch (s : GoString) (h : ¬ HasMatch s) :
    RemoveDataURIs s = s := by
  induction s with
  | nil => rfl
  | cons c cs ih =>
    have h1 : matchAt (c :: cs) = none := by
      cases hr : matchAt (c :: cs) with
      | none => rfl
      | some r => exact absurd (hasMatch_of_matchAt _ _ hr) h
    rw [removeDataURIs_cons_none c cs h1, ih (fun hc => h (hasMatch_cons c cs hc))]

/-- A string with a match gets strictly shorter. -/
theorem length_removeDataURIs_lt (s : GoString) (h : HasMatch s) :
    (RemoveDataURIs s).length < s.length := by
  induction s with
  | nil => exact absurd h not_hasMatch_nil
  | cons c cs ih =>
    cases hr : matchAt (c :: cs) with
    | some rest =>
      rw [removeDataURIs_cons_some c cs rest hr]
      have := matchAt_length _ _ hr
      have := length_removeDataURIs_le rest
      omega
    | none =>
      rw [removeDataURIs_cons_none c cs hr]
      rcases (hasMatch_cons_iff c cs).1 h with h1 | h1
      · rw [hr] at h1
        cases h1
      · have := ih h1
        simp only [List.length_cons]
        omega

/-- The fixed points of the sanitizer are the strings without a match. -/
theorem removeDataURIs_eq_self_iff (s : GoString) : RemoveDataURIs s = s ↔ ¬ HasMatch s := by
  constructor
  · intro h hm
    have := length_removeDataURIs_lt s hm
    rw [h] at this
    omega
  · exact removeDataURIs_of_not_hasMatch s

/-- A decision procedure for `HasMatch`: try the matcher at every position. -/
theorem hasMatch_iff_any (s : GoString) :
    HasMatch s ↔ s.tails.any (fun t => (matchAt t).isSome) = true := by
  induction s with
  | nil =>
    simp only [List.tails, List.any_cons, List.any_nil, Bool.or_false]
    constructor
    · intro h
      exact absurd h not_hasMatch_nil
    · intro h
      obtain ⟨r, hr⟩ := Option.isSome_iff_exists.1 h
      exact hasMatch_of_matchAt _ _ hr
  | cons c cs ih =>
    rw [hasMatch_cons_iff, ih]
    simp only [List.tails, List.any_cons, Bool.or_eq_true]

/-- At one position the pattern has at most one match, so the leftmost-first
choice of the regular expression engine is the only choice. -/
theorem matches_unique_at (m₁ m₂ r₁ r₂ : GoString) (h₁ : Matches dataURIPattern m₁)
    (h₂ : Matches dataURIPattern m₂) (h : m₁ ++ r₁ = m₂ ++ r₂) : m₁ = m₂ ∧ r₁ = r₂ := by
  have e₁ := (matchAt_eq_some (m₁ ++ r₁) r₁).2 ⟨m₁, h₁, rfl⟩
  have e₂ := (matchAt_eq_some (m₁ ++ r₁) r₂).2 ⟨m₂, h₂, h⟩
  rw [e₁] at e₂
  injection e₂ with e
  subst e
  exact ⟨List.append_cancel_right h, rfl⟩

/-- The sanitizer deletes the leftmost match and goes on behind it: when `m`
matches and no match starts inside `pre`, the text `pre` is copied, `m` is
dropped and the scan continues with `post`. -/
theorem removeDataURIs_leftmost (pre m post : GoString) (hm : Matches dataURIPattern m)
    (hpre : ∀ p₁ p₂, pre = p₁ ++ p₂ → p₂ ≠ [] → matchAt (p₂ ++ m ++ post) = none) :
    RemoveDataURIs (pre ++ m ++ post) = pre ++ RemoveDataURIs post := by
  induction pre with
  | nil =>
    have hne := matches_dataURIPattern_ne_nil m hm
    cases m with
    | nil => exact absurd rfl hne
    | cons c cs =>
      have := (matchAt_eq_some (c :: cs ++ post) post).2 ⟨c :: cs, hm, rfl⟩
      simpa using removeDataURIs_cons_some c (cs ++ post) post this
  | cons a pre ih =>
    have h0 := hpre [] (a :: pre) rfl (by simp)
    have h1 : RemoveDataURIs (a :: (pre ++ m ++ post)) = a :: RemoveDataURIs (pre ++ m ++ post) :=
      removeDataURIs_cons_none a _ (by simpa using h0)
    have h2 := ih (fun p₁ p₂ e hp => hpre (a :: p₁) p₂ (by simp [e]) hp)
    rw [List.cons_append, List.cons_append, h1, h2, List.cons_append]

/-! ## Lemmas on the size bound -/

theorem maxBodyLength_eq : maxBodyLength = 51200 := by decide

theorem truncateBody_eq_take (s : GoString) : truncateBody s = s.take maxBodyLength := by
  unfold truncateBody
  split
  · rfl
  · rename_i h
    exact (List.take_of_length_le (by omega)).symm

theorem length_truncateBody_le (s : GoString) : (truncateBody s).length ≤ maxBodyLength := by
  rw [truncateBody_eq_take, List.length_take]
  omega

theorem truncateBody_of_le (s : GoString) (h : s.length ≤ maxBodyLength) : truncateBody s = s := by
  unfold truncateBody
  rw [if_neg (by omega)]

theorem captureWebData_ok (b : Session) (url raw : GoString) (hn : b.navigate = none)
    (hv : b.waitVisible = none) (he : b.evaluate = .ok raw) :
    captureWebData b url =
      ({ URL := url, ResponseBody := truncateBody (RemoveDataURIs raw),
         Network := b.events.foldl listener [], Timestamp := b.now }, none) := by
  simp only [captureWebData, hn, hv, he]

/-! ## The validity filter (C1, C2) -/

/-- Claim C1: `isValidURL s` is true exactly when `url.Parse s` returns no
error and the scheme of the parsed URL is `http` or `https`; it accepts
`http://a.com` and rejects `ftp://a.com` and `not a url`. -/
theorem isValidURL_iff_parse :
    (∀ s : GoString, isValidURL s = true ↔
      ∃ u, Parse s = .ok u ∧ (u.Scheme = str "http" ∨ u.Scheme = str "https")) ∧
    isValidURL (str "http://a.com") = true ∧
    isValidURL (str "ftp://a.com") = false ∧
    isValidURL (str "not a url") = false := by
  refine ⟨?_, by decide, by decide, by decide⟩
  intro s
  unfold isValidURL
  cases hp : Parse s with
  | error e => simp
  | ok u =>
    simp only [Except.ok.injEq, exists_eq_left']
    by_cases h1 : u.Scheme = str "http"
    · simp [h1]
    · by_cases h2 : u.Scheme = str "https"
      · simp [h2]
      · simp [h1, h2]

/-! ### The line scanner -/

theorem maxScanTokenSize_eq : MaxScanTokenSize = 65536 := by decide

theorem indexByte_append (c : Nat) (p r : GoString) (hp : c ∉ p) :
    IndexByte c (p ++ c :: r) = some p.length := by
  induction p with
  | nil => simp [IndexByte]
  | cons a p ih =>
    simp only [List.mem_cons, not_or] at hp
    have ha : ¬ a = c := fun e => hp.1 e.symm
    have e : (a :: p) ++ c :: r = a :: (p ++ c :: r) := rfl
    rw [e, IndexByte, if_neg ha, ih hp.2]
    rfl

theorem indexByte_of_not_mem (c : Nat) (s : GoString) (h : c ∉ s) : IndexByte c s = none := by
  induction s with
  | nil => rfl
  | cons a s ih =>
    simp only [List.mem_cons, not_or] at h
    have ha : ¬ a = c := fun e => h.1 e.symm
    simp only [IndexByte, ha, if_false, ih h.2, Option.map_none']

theorem exists_first (c : Nat) (s : GoString) (h : c ∈ s) :
    ∃ p r, s = p ++ c :: r ∧ c ∉ p := by
  induction s with
  | nil => cases h
  | cons a s ih =>
    by_cases ha : a = c
    · exact ⟨[], s, by simp [ha], by simp⟩
    · have hs : c ∈ s := by
        rcases List.mem_cons.1 h with e | e
        · exact absurd e.symm ha
        · exact e
      obtain ⟨p, r, e, hp⟩ := ih hs
      refine ⟨a :: p, r, by simp [e], ?_⟩
      simp only [List.mem_cons, not_or]
      exact ⟨fun e => ha e.symm, hp⟩

theorem scanLines_line (p r : GoString) (err : Bool) (hp : 10 ∉ p) :
    ScanLines (p ++ 10 :: r) err = (p.length + 1, some (dropCR p)) := by
  have hne : ¬ (err = true ∧ p ++ 10 :: r = []) := by simp
  simp only [ScanLines, hne, if_false, indexByte_append 10 p r hp, List.take_left]

theorem scanLines_of_not_mem (buf : GoString) (err : Bool) (h : 10 ∉ buf) :
    ScanLines buf err =
      if err = true ∧ buf ≠ [] then (buf.length, some (dropCR buf)) else (0, none) := by
  simp only [ScanLines, indexByte_of_not_mem 10 buf h]
  cases err
  · simp
  · by_cases hb : buf = []
    · simp [hb]
    · simp [hb]

theorem scan_round (buf : GoString) (err : Bool) :
    (if buf ≠ [] ∨ err = true then ScanLines buf err else (0, none)) = ScanLines buf err := by
  by_cases h : buf ≠ [] ∨ err = true
  · rw [if_pos h]
  · rw [if_neg h]
    simp only [not_or, not_not, Bool.not_eq_true] at h
    rw [h.1, h.2]
    rfl

theorem scanLoop_token (chunk : Nat → Nat) (fuel advance : Nat) (buf unread url : GoString)
    (err : Bool) (acc : List GoString) (h : ScanLines buf err = (advance, some url)) :
    scanLoop chunk (fuel + 1) buf unread err acc =
      scanLoop chunk fuel (buf.drop advance) unread err
        (if isValidURL url then acc ++ [url] else acc) := by
  simp only [scanLoop, scan_round]
  rw [h]

theorem scanLoop_no_token (chunk : Nat → Nat) (fuel advance : Nat) (buf unread : GoString)
    (err : Bool) (acc : List GoString) (h : ScanLines buf err = (advance, none)) :
    scanLoop chunk (fuel + 1) buf unread err acc =
      if err then acc
      else if buf.length ≥ MaxScanTokenSize then acc
      else if unread = [] then scanLoop chunk fuel buf [] true acc
      else
        scanLoop chunk fuel
          (buf ++ unread.take (min (max (chunk unread.length) 1) (MaxScanTokenSize - buf.length)))
          (unread.drop (min (max (chunk unread.length) 1) (MaxScanTokenSize - buf.length)))
          false acc := by
  simp only [scanLoop, scan_round]
  rw [h]

theorem lineTokens_long (rest : GoString) : ∀ cur : GoString, MaxScanTokenSize ≤ cur.length →
    lineTokens cur rest = [] := by
  induction rest with
  | nil =>
    intro cur h
    simp [lineTokens, h]
  | cons c cs ih =>
    intro cur h
    by_cases hc : c = 10
    · simp [lineTokens, hc, h]
    · simp only [lineTokens, hc, if_false]
      exact ih _ (by simp only [List.length_append, List.length_singleton]; omega)

theorem lineTokens_append_long (p rest : GoString) : ∀ cur : GoString, 10 ∉ p →
    MaxScanTokenSize ≤ (cur ++ p).length → lineTokens cur (p ++ rest) = [] := by
  induction p with
  | nil =>
    intro cur _ h
    exact lineTokens_long rest cur (by simpa using h)
  | cons a p ih =>
    intro cur hp h
    simp only [List.mem_cons, not_or] at hp
    have ha : ¬ a = 10 := fun e => hp.1 e.symm
    simp only [List.cons_append, lineTokens, ha, if_false]
    exact ih _ hp.2 (by simpa using h)

theorem lineTokens_line (p r : GoString) : ∀ cur : GoString, 10 ∉ p →
    lineTokens cur (p ++ 10 :: r) =
      if (cur ++ p).length ≥ MaxScanTokenSize then [] else dropCR (cur ++ p) :: lineTokens [] r := by
  induction p with
  | nil =>
    intro cur _
    simp only [List.nil_append, lineTokens, if_true, List.append_nil]
  | cons a p ih =>
    intro cur hp
    simp only [List.mem_cons, not_or] at hp
    have ha : ¬ a = 10 := fun e => hp.1 e.symm
    have e : (a :: p) ++ 10 :: r = a :: (p ++ 10 :: r) := rfl
    rw [e, lineTokens, if_neg ha, ih _ hp.2]
    simp only [List.append_assoc, List.singleton_append]

theorem lineTokens_last (p : GoString) : ∀ cur : GoString, 10 ∉ p →
    lineTokens cur p =
      if cur ++ p = [] then []
      else if (cur ++ p).length ≥ MaxScanTokenSize then [] else [dropCR (cur ++ p)] := by
  induction p with
  | nil =>
    intro cur _
    simp only [lineTokens, List.append_nil]
  | cons a p ih =>
    intro cur hp
    simp only [List.mem_cons, not_or] at hp
    have ha : ¬ a = 10 := fun e => hp.1 e.symm
    simp only [lineTokens, ha, if_false]
    rw [ih _ hp.2]
    simp only [List.append_assoc, List.singleton_append]

theorem filter_cons_append (acc rest : List GoString) (t : GoString) :
    acc ++ (t :: rest).filter (fun l => isValidURL l) =
      (if isValidURL t then acc ++ [t] else acc) ++ rest.filter (fun l => isValidURL l) := by
  simp only [List.filter_cons]
  cases isValidURL t <;> simp

/-- The scanner delivers the tokens of the stream, however `Read` chunks
it. -/
theorem scanLoop_spec (chunk : Nat → Nat) : ∀ (fuel : Nat) (buf unread : GoString) (err : Bool)
    (acc : List GoString),
    (err = true → unread = [] ∧ buf.length < MaxScanTokenSize) →
    buf.length ≤ MaxScanTokenSize →
    2 * unread.length + buf.length + (if err then 0 else 1) < fuel →
    scanLoop chunk fuel buf unread err acc =
      acc ++ (lineTokens [] (buf ++ unread)).filter (fun l => isValidURL l) := by
  intro fuel
  induction fuel with
  | zero =>
    intro buf unread err acc _ _ h
    omega
  | succ fuel ih =>
    intro buf unread err acc herr hbuf hfuel
    by_cases hnl : 10 ∈ buf
    · obtain ⟨p, r, rfl, hp⟩ := exists_first 10 buf hnl
      rw [scanLoop_token chunk fuel _ _ _ _ _ _ (scanLines_line p r err hp)]
      have hd : (p ++ 10 :: r).drop (p.length + 1) = r := by
        rw [List.drop_append]
        rfl
      simp only [List.length_append, List.length_cons] at hbuf hfuel
      rw [hd, ih r unread err _ (fun e => ⟨(herr e).1, by
          have := (herr e).2
          simp only [List.length_append, List.length_cons] at this
          omega⟩) (by omega) (by omega)]
      have hl : ¬ ([] ++ p).length ≥ MaxScanTokenSize := by
        simp only [List.nil_append]
        omega
      rw [List.append_assoc, List.cons_append, lineTokens_line p (r ++ unread) [] hp, if_neg hl,
        List.nil_append, filter_cons_append]
    · cases err with
      | true =>
        obtain ⟨hu, hlt⟩ := herr rfl
        subst hu
        by_cases hb : buf = []
        · subst hb
          rw [scanLoop_no_token chunk fuel 0 _ _ _ _ (by rfl)]
          simp [lineTokens]
        · have hs : ScanLines buf true = (buf.length, some (dropCR buf)) := by
            rw [scanLines_of_not_mem buf true hnl, if_pos ⟨rfl, hb⟩]
          have hpos : 0 < buf.length := List.length_pos.2 hb
          rw [scanLoop_token chunk fuel _ _ _ _ _ _ hs, List.drop_length,
            ih [] [] true _ (fun _ => ⟨rfl, by rw [maxScanTokenSize_eq]; simp⟩) (by simp)
              (by simp at hfuel ⊢; omega)]
          have h1 : ¬ ([] ++ buf = []) := by simpa using hb
          have h2 : ¬ ([] ++ buf).length ≥ MaxScanTokenSize := by
            simp only [List.nil_append]
            omega
          have e : buf ++ [] = buf := List.append_nil buf
          rw [e, lineTokens_last buf [] hnl, if_neg h1, if_neg h2, List.nil_append,
            filter_cons_append]
          simp [lineTokens]
      | false =>
        have hs : ScanLines buf false = (0, none) := by
          rw [scanLines_of_not_mem buf false hnl]
          simp
        rw [scanLoop_no_token chunk fuel 0 _ _ _ _ hs]
        simp only [Bool.false_eq_true, if_false]
        by_cases hfull : buf.length ≥ MaxScanTokenSize
        · rw [if_pos hfull, lineTokens_append_long buf unread [] hnl (by simpa using hfull)]
          simp
        · rw [if_neg hfull]
          by_cases hu : unread = []
          · subst hu
            rw [if_pos rfl]
            simp only [List.length_nil, Bool.false_eq_true, if_false] at hfuel
            exact ih buf [] true acc (fun _ => ⟨rfl, by omega⟩) hbuf (by simp; omega)
          · rw [if_neg hu]
            have hpos : 0 < unread.length := List.length_pos.2 hu
            simp only [Bool.false_eq_true, if_false] at hfuel
            rw [ih _ _ false acc (fun e => by cases e)
              (by simp only [List.length_append, List.length_take]; omega)
              (by simp only [List.length_append, List.length_take, List.length_drop,
                    Bool.false_eq_true, if_false]; omega)]
            rw [List.append_assoc, List.take_append_drop]

theorem readAndFilterURLs_eq_lineTokens (data : GoString) (chunk : Nat → Nat) :
    readAndFilterURLs ⟨false, data, chunk⟩ =
      (lineTokens [] data).filter (fun l => isValidURL l) := by
  simp only [readAndFilterURLs, Bool.not_false, if_true]
  rw [scanLoop_spec chunk _ [] data false [] (fun e => by cases e) (by simp)
    (by simp only [List.length_nil, Bool.false_eq_true, if_false]; omega)]
  simp

theorem lineTokens_unlines (ls : List GoString) (last : GoString)
    (hls : ∀ l ∈ ls, 10 ∉ l ∧ l.length < 65536) (h1 : 10 ∉ last) (h2 : last.length < 65536) :
    lineTokens [] (unlines ls ++ last) =
      (ls ++ (if last = [] then [] else [last])).map dropCR := by
  induction ls with
  | nil =>
    have h3 : ¬ ([] ++ last).length ≥ MaxScanTokenSize := by
      rw [maxScanTokenSize_eq]
      simp only [List.nil_append]
      omega
    rw [unlines, List.nil_append, lineTokens_last last [] h1, List.nil_append]
    by_cases hl : last = []
    · simp [hl]
    · rw [if_neg hl, if_neg (by simpa using h3), if_neg hl]
      rfl
  | cons l ls ih =>
    have hl := hls l (List.mem_cons_self l ls)
    have h3 : ¬ ([] ++ l).length ≥ MaxScanTokenSize := by
      rw [maxScanTokenSize_eq]
      simp only [List.nil_append]
      omega
    rw [unlines, List.append_assoc, List.cons_append, lineTokens_line l _ [] hl.1, if_neg h3,
      ih (fun x hx => hls x (List.mem_cons_of_mem l hx))]
    rfl

theorem lineTokens_unlines_long (ls : List GoString) (long rest : GoString)
    (hls : ∀ l ∈ ls, 10 ∉ l ∧ l.length < 65536) (h1 : 10 ∉ long) (h2 : 65536 ≤ long.length) :
    lineTokens [] (unlines ls ++ long ++ rest) = ls.map dropCR := by
  induction ls with
  | nil =>
    rw [unlines, List.nil_append, lineTokens_append_long long rest [] h1
      (by rw [maxScanTokenSize_eq]; simpa using h2)]
    rfl
  | cons l ls ih =>
    have hl := hls l (List.mem_cons_self l ls)
    have h3 : ¬ ([] ++ l).length ≥ MaxScanTokenSize := by
      rw [maxScanTokenSize_eq]
      simp only [List.nil_append]
      omega
    rw [unlines, List.append_assoc, List.append_assoc, List.cons_append,
      lineTokens_line l _ [] hl.1, if_neg h3, ← List.append_assoc,
      ih (fun x hx => hls x (List.mem_cons_of_mem l hx))]
    rfl

theorem mem_scanLoop (chunk : Nat → Nat) : ∀ (fuel : Nat) (buf unread : GoString) (err : Bool)
    (acc : List GoString), (∀ u ∈ acc, isValidURL u = true) →
    ∀ u ∈ scanLoop chunk fuel buf unread err acc, isValidURL u = true := by
  intro fuel
  induction fuel with
  | zero =>
    intro buf unread err acc h u hu
    exact h u hu
  | succ fuel ih =>
    intro buf unread err acc h u hu
    rcases hs : ScanLines buf err with ⟨advance, _ | url⟩
    · rw [scanLoop_no_token chunk fuel advance _ _ _ _ hs] at hu
      split at hu
      · exact h u hu
      · split at hu
        · exact h u hu
        · split at hu
          · exact ih _ _ _ _ h u hu
          · exact ih _ _ _ _ h u hu
    · rw [scanLoop_token chunk fuel advance _ _ _ _ _ hs] at hu
      refine ih _ _ _ _ ?_ u hu
      intro v hv
      by_cases hval : isValidURL url = true
      · rw [if_pos hval] at hv
        rcases List.mem_append.1 hv with h1 | h1
        · exact h v h1
        · rw [List.mem_singleton.1 h1]
          exact hval
      · rw [if_neg hval] at hv
        exact h v hv

theorem mem_readAndFilterURLs (stdin : Stdin) (u : GoString) (hu : u ∈ readAndFilterURLs stdin) :
    isValidURL u = true := by
  unfold readAndFilterURLs at hu
  split at hu
  · exact mem_scanLoop _ _ _ _ _ _ (fun v hv => by cases hv) u hu
  · cases hu

theorem not_mem_longLine : 10 ∉ longLine := by
  intro h
  have := List.eq_of_mem_replicate h
  omega

theorem length_longLine : longLine.length = 70004 := List.length_replicate 70004 120

/-- Claim C2 fails as stated: for the lines `http://a`, a line of 70004 bytes
and `https://c` the scanner stops at the second line, so the result is
`http://a` alone, although `https://c` is a line that `isValidURL` accepts. -/
theorem readAndFilterURLs_stops_at_long_line :
    readAndFilterURLs ⟨false, unlines [str "http://a", longLine, str "https://c"], fun _ => 4096⟩ =
      [str "http://a"] ∧
    str "https://c" ∈
      [str "http://a", longLine, str "https://c"].filter (fun l => isValidURL l) := by
  constructor
  · have e : unlines [str "http://a", longLine, str "https://c"] =
        unlines [str "http://a"] ++ longLine ++ (10 :: unlines [str "https://c"]) := by
      simp only [unlines, List.append_assoc, List.cons_append, List.nil_append]
    rw [readAndFilterURLs_eq_lineTokens, e,
      lineTokens_unlines_long [str "http://a"] longLine _ (by decide) not_mem_longLine
        (by rw [length_longLine]; omega)]
    decide
  · exact List.mem_filter.2 ⟨List.mem_cons_of_mem _ (List.mem_cons_of_mem _
      (List.mem_cons_self _ _)), by decide⟩

/-- Claim C2, amended: on a non-interactive stream whose lines all have fewer
than 65536 bytes (a line ends at a newline, a carriage return before the
newline is dropped with it, and a non-empty unterminated rest is the last
line), `readAndFilterURLs` returns exactly the lines accepted by `isValidURL`,
in input order and with repetitions kept, however `Read` chunks the stream;
at the first line of 65536 bytes or more the scan stops, and the result is the
accepted lines before that line.  The lines `http://a`, `ftp://b`,
`https://c` give `http://a`, `https://c`, and an empty stream gives the empty
sequence. -/
theorem readAndFilterURLs_short_lines :
    (∀ (chunk : Nat → Nat) (ls : List GoString) (last : GoString),
      (∀ l ∈ ls, 10 ∉ l ∧ l.length < 65536) → 10 ∉ last → last.length < 65536 →
      readAndFilterURLs ⟨false, unlines ls ++ last, chunk⟩ =
        ((ls ++ (if last = [] then [] else [last])).map dropCR).filter
          (fun l => isValidURL l)) ∧
    (∀ (chunk : Nat → Nat) (ls : List GoString) (long rest : GoString),
      (∀ l ∈ ls, 10 ∉ l ∧ l.length < 65536) → 10 ∉ long → 65536 ≤ long.length →
      readAndFilterURLs ⟨false, unlines ls ++ long ++ rest, chunk⟩ =
        (ls.map dropCR).filter (fun l => isValidURL l)) ∧
    (∀ chunk : Nat → Nat,
      readAndFilterURLs ⟨false, unlines [str "http://a", str "ftp://b", str "https://c"], chunk⟩ =
        [str "http://a", str "https://c"]) ∧
    (∀ chunk : Nat → Nat,
      readAndFilterURLs ⟨false, unlines [str "http://a", str "http://a"], chunk⟩ =
        [str "http://a", str "http://a"]) ∧
    (∀ chunk : Nat → Nat, readAndFilterURLs ⟨false, [], chunk⟩ = []) := by
  have h1 : ∀ (chunk : Nat → Nat) (ls : List GoString) (last : GoString),
      (∀ l ∈ ls, 10 ∉ l ∧ l.length < 65536) → 10 ∉ last → last.length < 65536 →
      readAndFilterURLs ⟨false, unlines ls ++ last, chunk⟩ =
        ((ls ++ (if last = [] then [] else [last])).map dropCR).filter
          (fun l => isValidURL l) := by
    intro chunk ls last hls hl1 hl2
    rw [readAndFilterURLs_eq_lineTokens, lineTokens_unlines ls last hls hl1 hl2]
  refine ⟨h1, ?_, ?_, ?_, ?_⟩
  · intro chunk ls long rest hls hl1 hl2
    rw [readAndFilterURLs_eq_lineTokens, lineTokens_unlines_long ls long rest hls hl1 hl2]
  · intro chunk
    have := h1 chunk [str "http://a", str "ftp://b", str "https://c"] [] (by decide) (by decide)
      (by decide)
    rw [List.append_nil] at this
    rw [this]
    decide
  · intro chunk
    have := h1 chunk [str "http://a", str "http://a"] [] (by decide) (by decide) (by decide)
    rw [List.append_nil] at this
    rw [this]
    decide
  · intro chunk
    have := h1 chunk [] [] (by decide) (by decide) (by decide)
    exact this.trans (by decide)

theorem readAndFilterURLs_short_lines_witness :
    (∀ l ∈ [str "http://a\r", str "ftp://b", str "", str "http://a"],
      10 ∉ l ∧ l.length < 65536) ∧
    10 ∉ str "https://c" ∧ (str "https://c").length < 65536 ∧
    readAndFilterURLs
        ⟨false, unlines [str "http://a\r", str "ftp://b", str "", str "http://a"] ++ str "https://c",
          fun _ => 3⟩ =
      (([str "http://a\r", str "ftp://b", str "", str "http://a"] ++
          (if str "https://c" = [] then [] else [str "https://c"])).map dropCR).filter
        (fun l => isValidURL l) ∧
    (([str "http://a\r", str "ftp://b", str "", str "http://a"] ++
          (if str "https://c" = [] then [] else [str "https://c"])).map dropCR).filter
        (fun l => isValidURL l) = [str "http://a", str "http://a", str "https://c"] :=
  ⟨by decide, by decide, by decide,
   readAndFilterURLs_short_lines.1 (fun _ => 3)
     [str "http://a\r", str "ftp://b", str "", str "http://a"] (str "https://c")
     (by decide) (by decide) (by decide),
   by decide⟩

/-! ## The sanitizer (C3, C4) -/

/-- Claim C3, at the input of the claim: `RemoveDataURIs` removes the header
`data:image/png;base64,` only; the payload `AAAA` stays, so the result is
`<img src="AAAA">x` and not `<img src="">x`. -/
theorem removeDataURIs_keeps_payload :
    RemoveDataURIs (str "<img src=\"data:image/png;base64,AAAA\">x") = str "<img src=\"AAAA\">x" ∧
    RemoveDataURIs (str "<img src=\"data:image/png;base64,AAAA\">x") ≠ str "<img src=\"\">x" := by
  constructor <;> decide

/-- Claim C4 fails as stated: on `dadata:x;y,ta:p;q,` the first pass leaves
`data:p;q,`, which the second pass deletes. -/
theorem removeDataURIs_not_idempotent :
    RemoveDataURIs (str "dadata:x;y,ta:p;q,") = str "data:p;q," ∧
    RemoveDataURIs (RemoveDataURIs (str "dadata:x;y,ta:p;q,")) = [] ∧
    RemoveDataURIs (RemoveDataURIs (str "dadata:x;y,ta:p;q,")) ≠
      RemoveDataURIs (str "dadata:x;y,ta:p;q,") := by
  refine ⟨by decide, by decide, by decide⟩

/-- Claim C4, amended: a second pass changes nothing exactly when the result
of the first pass contains no match of the pattern; this is the case for every
input without a match, which the sanitizer returns unchanged. -/
theorem removeDataURIs_idempotent_iff (s : GoString) :
    (RemoveDataURIs (RemoveDataURIs s) = RemoveDataURIs s ↔ ¬ HasMatch (RemoveDataURIs s)) ∧
    (¬ HasMatch s → RemoveDataURIs s = s ∧ RemoveDataURIs (RemoveDataURIs s) = RemoveDataURIs s) := by
  refine ⟨removeDataURIs_eq_self_iff _, fun h => ?_⟩
  have h1 := removeDataURIs_of_not_hasMatch s h
  exact ⟨h1, by rw [h1, h1]⟩

theorem removeDataURIs_idempotent_iff_witness :
    ¬ HasMatch (str "<p>x</p>") ∧
    RemoveDataURIs (RemoveDataURIs (str "<p>x</p>")) = RemoveDataURIs (str "<p>x</p>") :=
  have h : ¬ HasMatch (str "<p>x</p>") := by
    rw [hasMatch_iff_any]
    decide
  ⟨h, ((removeDataURIs_idempotent_iff (str "<p>x</p>")).2 h).2⟩

/-! ## The size bound (C5) -/

/-- Claim C5: after a successful capture of the markup `raw`, the
`response_body` has at most 51200 bytes and is a prefix of the sanitized
markup; a sanitized markup longer than 51200 is cut to its first 51200 bytes,
a shorter one is kept unchanged.  The bound is applied to the sanitized and
not to the raw markup: for the raw markup `data:a;b,c` the body is `c`, which
is no prefix of the raw markup. -/
theorem captureWebData_responseBody_bound :
    (∀ (b : Session) (url raw : GoString), b.navigate = none → b.waitVisible = none →
      b.evaluate = .ok raw →
      (captureWebData b url).1.ResponseBody.length ≤ 51200 ∧
      (captureWebData b url).1.ResponseBody <+: RemoveDataURIs raw ∧
      (51200 < (RemoveDataURIs raw).length →
        (captureWebData b url).1.ResponseBody.length = 51200 ∧
        (captureWebData b url).1.ResponseBody = (RemoveDataURIs raw).take 51200) ∧
      ((RemoveDataURIs raw).length ≤ 51200 →
        (captureWebData b url).1.ResponseBody = RemoveDataURIs raw)) ∧
    (∃ (b : Session) (url raw : GoString), b.navigate = none ∧ b.waitVisible = none ∧
      b.evaluate = .ok raw ∧ ¬ ((captureWebData b url).1.ResponseBody <+: raw)) := by
  constructor
  · intro b url raw hn hv he
    rw [captureWebData_ok b url raw hn hv he]
    simp only
    refine ⟨by simpa [maxBodyLength_eq] using length_truncateBody_le (RemoveDataURIs raw), ?_, ?_, ?_⟩
    · rw [truncateBody_eq_take]
      exact List.take_prefix _ _
    · intro h
      rw [truncateBody_eq_take, maxBodyLength_eq, List.length_take]
      exact ⟨by omega, rfl⟩
    · intro h
      exact truncateBody_of_le _ (by rw [maxBodyLength_eq]; exact h)
  · refine ⟨⟨[], none, none, .ok (str "data:a;b,c"), []⟩, [], str "data:a;b,c", rfl, rfl, rfl, ?_⟩
    decide

theorem captureWebData_responseBody_bound_witness :
    (pageSession [] (str "data:a;b,c")).navigate = none ∧
    (pageSession [] (str "data:a;b,c")).waitVisible = none ∧
    (pageSession [] (str "data:a;b,c")).evaluate = .ok (str "data:a;b,c") ∧
    (captureWebData (pageSession [] (str "data:a;b,c")) (str "http://a")).1.ResponseBody.length
      ≤ 51200 ∧
    (captureWebData (pageSession [] (str "data:a;b,c")) (str "http://a")).1.ResponseBody <+:
      RemoveDataURIs (str "data:a;b,c") :=
  have h := captureWebData_responseBody_bound.1 (pageSession [] (str "data:a;b,c"))
    (str "http://a") (str "data:a;b,c") rfl rfl rfl
  ⟨rfl, rfl, rfl, h.1, h.2.1⟩

/-! ## The network collector (C6) -/

theorem contains_iff (l : List GoString) (u : GoString) : contains l u = true ↔ u ∈ l := by
  induction l with
  | nil => simp [contains]
  | cons a l ih =>
    simp only [contains, List.mem_cons]
    by_cases h : a = u
    · simp [h]
    · rw [if_neg h, ih]
      constructor
      · exact Or.inr
      · rintro (e | e)
        · exact absurd e.symm h
        · exact e

theorem foldl_listener (events : List Event) : ∀ acc : List GoString,
    events.foldl listener acc =
      (qualifying events).foldl (fun acc u => if u ∈ acc then acc else acc ++ [u]) acc := by
  induction events with
  | nil => intro acc; rfl
  | cons e es ih =>
    intro acc
    cases e with
    | other k =>
      simp only [List.foldl_cons, listener, ih]
      rfl
    | requestWillBeSent u =>
      simp only [List.foldl_cons, listener, ih, qualifying, List.filterMap_cons, Event.requestURL,
        List.filter_cons]
      cases hp : HasPrefix u (str "data:")
      · by_cases hc : u ∈ acc
        · have := (contains_iff acc u).2 hc
          simp [this, hc]
        · have : contains acc u = false := by
            cases hb : contains acc u with
            | false => rfl
            | true => exact absurd ((contains_iff acc u).1 hb) hc
          simp [this, hc]
      · simp

theorem foldl_collect (us : List GoString) : ∀ seen acc : List GoString,
    (∀ x, x ∈ acc ↔ x ∈ seen) →
    us.foldl (fun acc u => if u ∈ acc then acc else acc ++ [u]) acc =
      acc ++ ((us.enumFrom seen.length).filter
        (fun p => decide (p.2 ∉ (seen ++ us).take p.1))).map Prod.snd := by
  induction us with
  | nil => intro seen acc _; simp
  | cons u us ih =>
    intro seen acc h
    have ht : (seen ++ u :: us).take seen.length = seen := by simp
    have e : seen ++ [u] ++ us = seen ++ u :: us := by simp
    have hl : (seen ++ [u]).length = seen.length + 1 := by simp
    simp only [List.foldl_cons, List.enumFrom_cons, List.filter_cons, ht]
    by_cases hu : u ∈ acc
    · have hs : u ∈ seen := (h u).1 hu
      have hi := ih (seen ++ [u]) acc (by
        intro x
        simp only [List.mem_append, List.mem_singleton, h x]
        constructor
        · exact Or.inl
        · rintro (hx | hx)
          · exact hx
          · exact hx ▸ hs)
      rw [e, hl] at hi
      simp only [hu, hs, if_true, not_true_eq_false, decide_False]
      exact hi
    · have hs : u ∉ seen := fun hx => hu ((h u).2 hx)
      have hi := ih (seen ++ [u]) (acc ++ [u]) (by
        intro x
        simp only [List.mem_append, List.mem_singleton, h x])
      rw [e, hl] at hi
      simp only [hu, hs, if_false, not_false_eq_true, decide_True, if_true, List.map_cons]
      rw [hi]
      simp

theorem foldl_collect_nil (us : List GoString) :
    us.foldl (fun acc u => if u ∈ acc then acc else acc ++ [u]) [] = firstOccurrences us := by
  have := foldl_collect us [] [] (fun _ => Iff.rfl)
  simpa [firstOccurrences, List.enum] using this

theorem nodup_foldl_collect (us : List GoString) : ∀ acc : List GoString, acc.Nodup →
    (us.foldl (fun acc u => if u ∈ acc then acc else acc ++ [u]) acc).Nodup := by
  induction us with
  | nil => intro acc h; exact h
  | cons u us ih =>
    intro acc h
    simp only [List.foldl_cons]
    apply ih
    by_cases hu : u ∈ acc
    · simpa [hu] using h
    · simp only [hu, if_false]
      rw [List.nodup_append]
      refine ⟨h, List.nodup_singleton u, ?_⟩
      intro x hx hx2
      simp only [List.mem_singleton] at hx2
      exact hu (hx2 ▸ hx)

theorem mem_foldl_collect (us : List GoString) : ∀ (acc : List GoString) (x : GoString),
    x ∈ us.foldl (fun acc u => if u ∈ acc then acc else acc ++ [u]) acc → x ∈ acc ∨ x ∈ us := by
  induction us with
  | nil => intro acc x h; exact Or.inl h
  | cons u us ih =>
    intro acc x h
    simp only [List.foldl_cons] at h
    rcases ih _ x h with h1 | h1
    · by_cases hu : u ∈ acc
      · simp only [hu, if_true] at h1
        exact Or.inl h1
      · simp only [hu, if_false, List.mem_append, List.mem_singleton] at h1
        rcases h1 with h2 | h2
        · exact Or.inl h2
        · exact Or.inr (by simp [h2])
    · exact Or.inr (List.mem_cons_of_mem _ h1)

theorem collector_spec (events : List Event) :
    (events.foldl listener []).Nodup ∧
    (∀ u ∈ events.foldl listener [], HasPrefix u (str "data:") = false) ∧
    events.foldl listener [] = firstOccurrences (qualifying events) := by
  rw [foldl_listener]
  refine ⟨nodup_foldl_collect _ _ List.nodup_nil, ?_, foldl_collect_nil _⟩
  intro u hu
  rcases mem_foldl_collect _ _ _ hu with h | h
  · cases h
  · simp only [qualifying, List.mem_filter, Bool.not_eq_true'] at h
    exact h.2

/-- Claim C6: whatever events the browser delivers, the collected list has no
duplicates and no entry starting with `data:`, and it is the list of the
target URLs of the "request will be sent" events that do not start with
`data:`, each kept once at the position of its first observation; this list
is the `network` field of every successful capture. -/
theorem network_first_observed :
    (∀ events : List Event,
      (events.foldl listener []).Nodup ∧
      (∀ u ∈ events.foldl listener [], HasPrefix u (str "data:") = false) ∧
      events.foldl listener [] = firstOccurrences (qualifying events)) ∧
    (∀ (b : Session) (url : GoString), (captureWebData b url).2 = none →
      (captureWebData b url).1.Network = firstOccurrences (qualifying b.events)) := by
  refine ⟨collector_spec, ?_⟩
  intro b url h
  unfold captureWebData at h ⊢
  cases hn : b.navigate with
  | some e => simp [hn] at h
  | none =>
    cases hv : b.waitVisible with
    | some e => simp [hn, hv] at h
    | none =>
      cases he : b.evaluate with
      | error e => simp [hn, hv, he] at h
      | ok raw =>
        simp only
        exact (collector_spec b.events).2.2

theorem network_first_observed_witness :
    (captureWebData (pageSession sampleEvents (str "<p>x</p>")) (str "http://a")).2 = none ∧
    (captureWebData (pageSession sampleEvents (str "<p>x</p>")) (str "http://a")).1.Network =
      firstOccurrences (qualifying sampleEvents) ∧
    firstOccurrences (qualifying sampleEvents) = [str "http://a/x.js", str "http://a/y.css"] :=
  ⟨by decide,
   network_first_observed.2 (pageSession sampleEvents (str "<p>x</p>")) (str "http://a")
     (by decide),
   by decide⟩

/-! ## Failed attempts and the batch (C7, C8) -/

theorem captureWebData_error (b : Session) (url : GoString)
    (h : b.navigate ≠ none ∨ b.waitVisible ≠ none ∨ ∃ e, b.evaluate = .error e) :
    (captureWebData b url).1 = {} ∧ (captureWebData b url).2 ≠ none := by
  unfold captureWebData
  cases hn : b.navigate with
  | some e => simp
  | none =>
    cases hv : b.waitVisible with
    | some e => simp
    | none =>
      cases he : b.evaluate with
      | error e => simp
      | ok raw =>
        rcases h with h | h | ⟨e, h⟩
        · exact absurd hn h
        · exact absurd hv h
        · rw [he] at h
          cases h

theorem captureWebData_url (b : Session) (url : GoString) (h : (captureWebData b url).2 = none) :
    (captureWebData b url).1.URL = url := by
  unfold captureWebData at h ⊢
  cases hn : b.navigate with
  | some e => simp [hn] at h
  | none =>
    cases hv : b.waitVisible with
    | some e => simp [hn, hv] at h
    | none =>
      cases he : b.evaluate with
      | error e => simp [hn, hv, he] at h
      | ok raw => rfl

theorem processURL_stdout (a : Attempt) (url path : GoString) (w : World) :
    (processURL a url path w).stdout = w.stdout ++ [str "Get: " ++ url] := by
  unfold processURL
  rcases hc : captureWebData a.session url with ⟨r, _ | err⟩
  · cases hs : a.sink <;> simp [outputJSON, hs]
  · rfl

theorem processURL_files_of_error (a : Attempt) (url path : GoString) (w : World)
    (h : (captureWebData a.session url).2 ≠ none) : (processURL a url path w).files = w.files := by
  unfold processURL
  rcases hc : captureWebData a.session url with ⟨r, _ | err⟩
  · rw [hc] at h
    exact absurd rfl h
  · rfl

theorem processURL_files (a : Attempt) (url path : GoString) (w : World) :
    (processURL a url path w).files path =
      w.files path ++
        (if (captureWebData a.session url).2 = none ∧ a.sink = .written then
          [(captureWebData a.session url).1] else []) := by
  unfold processURL
  rcases hc : captureWebData a.session url with ⟨r, _ | err⟩
  · cases hs : a.sink <;> simp [outputJSON, hs]
  · simp

theorem processAll_files (env : Nat → Attempt) (path : GoString) (urls : List GoString) :
    ∀ (k : Nat) (w : World),
      (processAll env path k urls w).files path =
        w.files path ++ (urls.enumFrom k).filterMap (fun p =>
          if (captureWebData (env p.1).session p.2).2 = none ∧ (env p.1).sink = .written then
            some (captureWebData (env p.1).session p.2).1 else none) := by
  induction urls with
  | nil => intro k w; simp [processAll]
  | cons u us ih =>
    intro k w
    simp only [processAll, ih, processURL_files, List.enumFrom_cons, List.filterMap_cons]
    split <;> simp

theorem processAll_stdout (env : Nat → Attempt) (path : GoString) (urls : List GoString) :
    ∀ (k : Nat) (w : World),
      (processAll env path k urls w).stdout = w.stdout ++ urls.map (fun u => str "Get: " ++ u) := by
  induction urls with
  | nil => intro k w; simp [processAll]
  | cons u us ih =>
    intro k w
    simp only [processAll, ih, processURL_stdout, List.map_cons, List.append_assoc,
      List.singleton_append]

/-- Claim C7, the two paths of `main`.  A URL given with `-u` goes to
`processURL` without passing `isValidURL`: `-u ftp://a.com` is attempted and,
when the page loads, recorded, although the filter rejects it.  Without `-u`
every attempted URL is a line of the input stream that passed the filter. -/
theorem main_flag_url_unfiltered :
    (∀ (u o : GoString) (stdin : Stdin) (env : Nat → Attempt) (w : World), u ≠ [] →
      (main ⟨u, o⟩ stdin env w).stdout = w.stdout ++ [str "Get: " ++ u]) ∧
    isValidURL (str "ftp://a.com") = false ∧
    (main ⟨str "ftp://a.com", str "out.json"⟩ ⟨true, [], fun _ => 1⟩ secondTimesOut
      emptyWorld).stdout =
      [str "Get: ftp://a.com"] ∧
    ((main ⟨str "ftp://a.com", str "out.json"⟩ ⟨true, [], fun _ => 1⟩ secondTimesOut
      emptyWorld).files
      (str "out.json")).map ResponseData.URL = [str "ftp://a.com"] ∧
    (∀ (o : GoString) (stdin : Stdin) (env : Nat → Attempt) (w : World),
      (main ⟨[], o⟩ stdin env w).stdout =
        w.stdout ++ (readAndFilterURLs stdin).map (fun u => str "Get: " ++ u) ∧
      ∀ u ∈ readAndFilterURLs stdin, isValidURL u = true) := by
  refine ⟨?_, by decide, by decide, by decide, ?_⟩
  · intro u o stdin env w hu
    simp only [main, hu, ne_eq, not_false_eq_true, if_true, processURL_stdout]
  · intro o stdin env w
    refine ⟨by simp [main, processAll_stdout], ?_⟩
    exact fun u hu => mem_readAndFilterURLs stdin u hu

theorem main_flag_url_unfiltered_witness :
    str "file:///etc/passwd" ≠ [] ∧
    isValidURL (str "file:///etc/passwd") = false ∧
    (main ⟨str "file:///etc/passwd", str "out.json"⟩ ⟨true, [], fun _ => 1⟩ unwritable
      emptyWorld).stdout =
      emptyWorld.stdout ++ [str "Get: " ++ str "file:///etc/passwd"] :=
  ⟨by decide, by decide,
   main_flag_url_unfiltered.1 (str "file:///etc/passwd") (str "out.json") ⟨true, [], fun _ => 1⟩
     unwritable emptyWorld (by decide)⟩

/-- Claim C8 fails as stated: a capture that succeeds leaves no record when
the output file cannot be opened. -/
theorem capture_ok_without_record :
    (captureWebData (unwritable 0).session (str "http://a")).2 = none ∧
    (processAll unwritable (str "out.json") 0 [str "http://a"] emptyWorld).files (str "out.json")
      = [] ∧
    (processAll unwritable (str "out.json") 0 [str "http://a"] emptyWorld).log =
      [LogEntry.openFailed] := by
  refine ⟨by decide, by decide, by decide⟩

/-- Claim C8, amended: when navigation, the visibility wait or the script
evaluation fails, `captureWebData` returns an error and the empty
`ResponseData`, and `processURL` leaves every file unchanged; a batch attempts
every URL and appends to the output file exactly one record per URL whose
capture succeeds and whose record `outputJSON` manages to write, in input
order; with working writes, three URLs of which the second fails give exactly
two records, for the first and the third URL. -/
theorem failed_attempt_no_record :
    (∀ (b : Session) (url : GoString),
      (b.navigate ≠ none ∨ b.waitVisible ≠ none ∨ ∃ e, b.evaluate = .error e) →
      (captureWebData b url).1 = {} ∧ (captureWebData b url).2 ≠ none) ∧
    (∀ (a : Attempt) (url path : GoString) (w : World),
      (captureWebData a.session url).2 ≠ none → (processURL a url path w).files = w.files) ∧
    (∀ (env : Nat → Attempt) (path : GoString) (urls : List GoString) (k : Nat) (w : World),
      (processAll env path k urls w).stdout = w.stdout ++ urls.map (fun u => str "Get: " ++ u) ∧
      (processAll env path k urls w).files path =
        w.files path ++ (urls.enumFrom k).filterMap (fun p =>
          if (captureWebData (env p.1).session p.2).2 = none ∧ (env p.1).sink = .written then
            some (captureWebData (env p.1).session p.2).1 else none)) ∧
    (∀ (env : Nat → Attempt) (path u1 u2 u3 : GoString) (w : World),
      (captureWebData (env 0).session u1).2 = none →
      (captureWebData (env 1).session u2).2 ≠ none →
      (captureWebData (env 2).session u3).2 = none →
      (env 0).sink = .written → (env 2).sink = .written →
      (processAll env path 0 [u1, u2, u3] w).files path =
        w.files path ++
          [(captureWebData (env 0).session u1).1, (captureWebData (env 2).session u3).1] ∧
      (captureWebData (env 0).session u1).1.URL = u1 ∧
      (captureWebData (env 2).session u3).1.URL = u3) := by
  refine ⟨captureWebData_error, processURL_files_of_error, ?_, ?_⟩
  · intro env path urls k w
    exact ⟨processAll_stdout env path urls k w, processAll_files env path urls k w⟩
  · intro env path u1 u2 u3 w h1 h2 h3 s1 s3
    refine ⟨?_, captureWebData_url _ _ h1, captureWebData_url _ _ h3⟩
    rw [processAll_files]
    simp [List.enumFrom, h1, h2, h3, s1, s3]

theorem failed_attempt_no_record_witness :
    (captureWebData (secondTimesOut 0).session (str "http://a")).2 = none ∧
    (captureWebData (secondTimesOut 1).session (str "http://b")).2 ≠ none ∧
    (captureWebData (secondTimesOut 2).session (str "http://c")).2 = none ∧
    (secondTimesOut 0).sink = .written ∧ (secondTimesOut 2).sink = .written ∧
    (processAll secondTimesOut (str "out.json") 0
        [str "http://a", str "http://b", str "http://c"] emptyWorld).files (str "out.json") =
      emptyWorld.files (str "out.json") ++
        [(captureWebData (secondTimesOut 0).session (str "http://a")).1,
         (captureWebData (secondTimesOut 2).session (str "http://c")).1] ∧
    (captureWebData (secondTimesOut 0).session (str "http://a")).1.URL = str "http://a" ∧
    (captureWebData (secondTimesOut 2).session (str "http://c")).1.URL = str "http://c" :=
  ⟨by decide, by decide, by decide, by decide, by decide,
   failed_attempt_no_record.2.2.2 secondTimesOut (str "out.json") (str "http://a")
     (str "http://b") (str "http://c") emptyWorld (by decide) (by decide) (by decide)
     (by decide) (by decide)⟩

/-! ## End to end (C9) -/

theorem foldl_collect_of_nodup (us : List GoString) : ∀ acc : List GoString, (acc ++ us).Nodup →
    us.foldl (fun acc u => if u ∈ acc then acc else acc ++ [u]) acc = acc ++ us := by
  induction us with
  | nil => intro acc _; simp
  | cons u us ih =>
    intro acc h
    have hu : u ∉ acc := by
      intro hx
      rw [List.nodup_append] at h
      exact h.2.2 hx (List.mem_cons_self u us)
    have h2 : (acc ++ [u] ++ us).Nodup := by simpa using h
    simp only [List.foldl_cons, hu, if_false]
    rw [ih _ h2]
    simp

theorem qualifying_of_no_data (events : List Event)
    (hp : ∀ u ∈ events.filterMap Event.requestURL, HasPrefix u (str "data:") = false) :
    qualifying events = events.filterMap Event.requestURL := by
  unfold qualifying
  rw [List.filter_eq_self]
  intro u hu
  simp [hp u hu]

/-- Claim C9: a successful capture of a markup without a match of the
sanitizer's pattern, during which the request events carry pairwise distinct
URLs none of which starts with `data:`, returns the requested URL verbatim,
those URLs in arrival order as `network` (as many entries as request events),
and as `response_body` the markup itself when it has at most 51200 bytes and
its first 51200 bytes otherwise. -/
theorem capture_end_to_end (b : Session) (url raw : GoString)
    (hn : b.navigate = none) (hv : b.waitVisible = none) (he : b.evaluate = .ok raw)
    (hm : ¬ HasMatch raw)
    (hd : (b.events.filterMap Event.requestURL).Nodup)
    (hp : ∀ u ∈ b.events.filterMap Event.requestURL, HasPrefix u (str "data:") = false) :
    (captureWebData b url).2 = none ∧
    (captureWebData b url).1.URL = url ∧
    (captureWebData b url).1.Network = b.events.filterMap Event.requestURL ∧
    (captureWebData b url).1.Network.length = (b.events.filterMap Event.requestURL).length ∧
    (captureWebData b url).1.ResponseBody =
      (if raw.length ≤ 51200 then raw else raw.take 51200) ∧
    (captureWebData b url).1.Timestamp = b.now := by
  have hnet : b.events.foldl listener [] = b.events.filterMap Event.requestURL := by
    rw [foldl_listener, qualifying_of_no_data _ hp, foldl_collect_of_nodup _ _ (by simpa using hd)]
    simp
  rw [captureWebData_ok b url raw hn hv he]
  refine ⟨rfl, rfl, hnet, by rw [hnet], ?_, rfl⟩
  simp only [removeDataURIs_of_not_hasMatch raw hm]
  rw [truncateBody_eq_take, maxBodyLength_eq]
  split
  · rename_i h
    exact List.take_of_length_le h
  · rfl

theorem capture_end_to_end_witness :
    ¬ HasMatch (str "<p>x</p>") ∧
    (threeRequests.filterMap Event.requestURL).Nodup ∧
    (∀ u ∈ threeRequests.filterMap Event.requestURL, HasPrefix u (str "data:") = false) ∧
    (captureWebData (pageSession threeRequests (str "<p>x</p>")) (str "http://a")).1.Network =
      [str "http://a/1.js", str "http://a/2.css", str "http://a/3.png"] ∧
    (captureWebData (pageSession threeRequests (str "<p>x</p>")) (str "http://a")).1.ResponseBody =
      str "<p>x</p>" ∧
    (captureWebData (pageSession threeRequests (str "<p>x</p>")) (str "http://a")).1.URL =
      str "http://a" :=
  have hm : ¬ HasMatch (str "<p>x</p>") := by
    rw [hasMatch_iff_any]
    decide
  have h := capture_end_to_end (pageSession threeRequests (str "<p>x</p>")) (str "http://a")
    (str "<p>x</p>") rfl rfl rfl hm (by decide) (by decide)
  ⟨hm, by decide, by decide, h.2.2.1.trans (by decide), h.2.2.2.2.1.trans (by decide), h.2.1⟩

/-! ## Bytes and characters (C10) -/

theorem utf8Chars_append (a b : List Char) : utf8Chars (a ++ b) = utf8Chars a ++ utf8Chars b := by
  induction a with
  | nil => rfl
  | cons c cs ih =>
    show utf8EncodeChar c ++ utf8Chars (cs ++ b) = utf8EncodeChar c ++ utf8Chars cs ++ utf8Chars b
    rw [ih, List.append_assoc]

theorem utf8EncodeChar_e_acute : utf8EncodeChar (Char.ofNat 233) = [195, 169] := by decide

theorem utf8Chars_replicate_succ (n : Nat) :
    utf8Chars (List.replicate (n + 1) (Char.ofNat 233)) =
      utf8Chars (List.replicate n (Char.ofNat 233)) ++ [195, 169] := by
  rw [List.replicate_succ', utf8Chars_append]
  simp only [utf8Chars, utf8EncodeChar_e_acute, List.append_nil]

theorem length_utf8Chars_replicate (n : Nat) :
    (utf8Chars (List.replicate n (Char.ofNat 233))).length = 2 * n := by
  induction n with
  | zero => rfl
  | succ n ih =>
    rw [utf8Chars_replicate_succ, List.length_append, ih]
    simp only [List.length_cons, List.length_nil]
    omega

theorem mem_utf8Chars_replicate (n : Nat) (x : Nat)
    (h : x ∈ utf8Chars (List.replicate n (Char.ofNat 233))) : x = 195 ∨ x = 169 := by
  induction n with
  | zero => cases h
  | succ n ih =>
    rw [utf8Chars_replicate_succ, List.mem_append] at h
    rcases h with h | h
    · exact ih h
    · simpa using h

theorem not_hasMatch_of_not_mem (s : GoString) (h : 100 ∉ s) : ¬ HasMatch s := by
  rintro ⟨pre, m, post, rfl, hm⟩
  obtain ⟨x, y, _, _, _, _, rfl⟩ := (matches_dataURIPattern m).1 hm
  exact h (by simp)

theorem getLast_utf8EncodeChar_lt (c : Char) (x : Nat)
    (h : (utf8EncodeChar c).getLast? = some x) : x < 192 := by
  unfold utf8EncodeChar at h
  simp only at h
  split at h
  · simp only [List.getLast?_singleton, Option.some.injEq] at h
    omega
  · split at h
    · simp only [List.getLast?_cons_cons, List.getLast?_singleton, Option.some.injEq] at h
      omega
    · split at h
      · simp only [List.getLast?_cons_cons, List.getLast?_singleton, Option.some.injEq] at h
        omega
      · simp only [List.getLast?_cons_cons, List.getLast?_singleton, Option.some.injEq] at h
        omega

/-- The last byte of a UTF-8 encoding is an ASCII byte or a continuation
byte, never a lead byte. -/
theorem getLast_utf8Chars_lt (cs : List Char) : ∀ x : Nat,
    (utf8Chars cs).getLast? = some x → x < 192 := by
  induction cs with
  | nil => intro x h; cases h
  | cons c cs ih =>
    intro x h
    simp only [utf8Chars, List.getLast?_append] at h
    cases hl : (utf8Chars cs).getLast? with
    | some y =>
      rw [hl] at h
      simp only [Option.or_some, Option.some.injEq] at h
      exact h ▸ ih y hl
    | none =>
      rw [hl] at h
      simp only [Option.none_or] at h
      exact getLast_utf8EncodeChar_lt c x h

theorem not_validUTF8_concat_lead (t : GoString) : ¬ ValidUTF8 (t ++ [195]) := by
  rintro ⟨cs, h⟩
  have := getLast_utf8Chars_lt cs 195 (by rw [h, List.getLast?_concat])
  omega

theorem utf8EncodeChar_a : utf8EncodeChar 'a' = [97] := by decide

theorem utf8Chars_wide (n : Nat) :
    utf8Chars ('a' :: List.replicate (n + 1) (Char.ofNat 233)) =
      (97 :: utf8Chars (List.replicate n (Char.ofNat 233))) ++ [195, 169] := by
  rw [utf8Chars, utf8EncodeChar_a, utf8Chars_replicate_succ]
  rfl

theorem utf8Chars_wideBody :
    utf8Chars wideBody = (97 :: utf8Chars (List.replicate 25599 (Char.ofNat 233))) ++ [195, 169] :=
  utf8Chars_wide 25599

theorem length_utf8Chars_wideBody : (utf8Chars wideBody).length = 51201 := by
  rw [utf8Chars_wideBody, List.length_append, List.length_cons, length_utf8Chars_replicate]
  rfl

theorem take_utf8Chars_wideBody :
    (utf8Chars wideBody).take 51200 =
      (97 :: utf8Chars (List.replicate 25599 (Char.ofNat 233))) ++ [195] := by
  have hl : (97 :: utf8Chars (List.replicate 25599 (Char.ofNat 233)) : GoString).length = 51199 := by
    rw [List.length_cons, length_utf8Chars_replicate]
  rw [utf8Chars_wideBody, List.take_append_eq_append_take, hl, List.take_of_length_le (by omega)]
  rfl

theorem removeDataURIs_wideBody : RemoveDataURIs (utf8Chars wideBody) = utf8Chars wideBody := by
  apply removeDataURIs_of_not_hasMatch
  apply not_hasMatch_of_not_mem
  rw [utf8Chars_wideBody]
  intro h
  rw [List.mem_append, List.mem_cons] at h
  rcases h with (h | h) | h
  · exact absurd h (by decide)
  · rcases mem_utf8Chars_replicate _ _ h with h | h <;> exact absurd h (by decide)
  · exact absurd h (by decide)

/-- Claim C10: the bound counts UTF-8 bytes.  The body `wideBody` has 25601
characters (at most 51200) and 51201 bytes and is left alone by the
sanitizer; its `response_body` differs from it, is its first 51200 bytes, and
is not valid UTF-8, because the cut falls inside the last two-byte
character. -/
theorem bound_counts_bytes :
    wideBody.length ≤ 51200 ∧
    51200 < (utf8Chars wideBody).length ∧
    RemoveDataURIs (utf8Chars wideBody) = utf8Chars wideBody ∧
    ValidUTF8 (utf8Chars wideBody) ∧
    (∀ (b : Session) (url : GoString), b.navigate = none → b.waitVisible = none →
      b.evaluate = .ok (utf8Chars wideBody) →
      (captureWebData b url).1.ResponseBody ≠ utf8Chars wideBody ∧
      (captureWebData b url).1.ResponseBody = (utf8Chars wideBody).take 51200 ∧
      ¬ ValidUTF8 (captureWebData b url).1.ResponseBody) := by
  refine ⟨by rw [wideBody, List.length_cons, List.length_replicate]; omega,
    by rw [length_utf8Chars_wideBody]; omega, removeDataURIs_wideBody,
    ⟨wideBody, rfl⟩, ?_⟩
  intro b url hn hv he
  rw [captureWebData_ok b url _ hn hv he]
  simp only [removeDataURIs_wideBody, truncateBody_eq_take, maxBodyLength_eq]
  refine ⟨?_, trivial, ?_⟩
  · intro h
    have := congrArg List.length h
    rw [List.length_take, length_utf8Chars_wideBody] at this
    omega
  · rw [take_utf8Chars_wideBody]
    exact not_validUTF8_concat_lead _

theorem bound_counts_bytes_witness :
    (pageSession [] (utf8Chars wideBody)).navigate = none ∧
    (pageSession [] (utf8Chars wideBody)).waitVisible = none ∧
    (pageSession [] (utf8Chars wideBody)).evaluate = .ok (utf8Chars wideBody) ∧
    (captureWebData (pageSession [] (utf8Chars wideBody)) (str "http://a")).1.ResponseBody ≠
      utf8Chars wideBody ∧
    ¬ ValidUTF8 (captureWebData (pageSession [] (utf8Chars wideBody)) (str "http://a")).1.ResponseBody :=
  have h := bound_counts_bytes.2.2.2.2 (pageSession [] (utf8Chars wideBody)) (str "http://a")
    rfl rfl rfl
  ⟨rfl, rfl, rfl, h.1, h.2.2⟩

end Detect
